import Mathlib

/-!
# Camera controller of the 3D graphics engine (`camera.h`)

A shallow embedding of `src/GraphicEngine/camera.h`, of the input callbacks of
`src/GraphicEngine/main.cpp` and of the sphere and torus of
`src/GraphicEngine/primitives.h`.

* `float` values are idealised as real numbers (`ℝ`): every statement below is about
  exact real arithmetic, not about IEEE rounding.
* `Direction_Movement` is an `enum class` over `int`; its values are modelled as
  integers with the two's-complement bitwise operations of `Int`.
* The GLM functions used by the camera (`radians`, `dot`, `cross`, `normalize`,
  `clamp`, `rotate`, matrix-vector product) are transcribed from the GLM headers.
* A member function `void f(args)` of `Camera` becomes `Camera.f : Camera → args → Camera`.
* `unsigned` values are natural numbers with arithmetic modulo `2 ^ 32`; `for` loops run
  on fuel and return `none` when it runs out.
-/

noncomputable section

namespace GraphicEngine

/-! ## GLM vectors and matrices -/

/-- The type `glm::vec3` over the reals. -/
@[ext]
structure Vec3 where
  x : ℝ
  y : ℝ
  z : ℝ

/-- The type `glm::vec4` over the reals. -/
@[ext]
structure Vec4 where
  x : ℝ
  y : ℝ
  z : ℝ
  w : ℝ

/-- The type `glm::mat4`: four columns `m[0] .. m[3]` (GLM is column-major). -/
@[ext]
structure Mat4 where
  c0 : Vec4
  c1 : Vec4
  c2 : Vec4
  c3 : Vec4

namespace Vec3

/-- Component-wise `operator+` of `glm::vec3`. -/
def add (a b : Vec3) : Vec3 := ⟨a.x + b.x, a.y + b.y, a.z + b.z⟩

/-- Component-wise `operator-` of `glm::vec3`. -/
def sub (a b : Vec3) : Vec3 := ⟨a.x - b.x, a.y - b.y, a.z - b.z⟩

/-- The `operator*(vec3, float)` of GLM. -/
def scale (a : Vec3) (s : ℝ) : Vec3 := ⟨a.x * s, a.y * s, a.z * s⟩

/-- The `operator*(float, vec3)` of GLM. -/
def smul (s : ℝ) (a : Vec3) : Vec3 := ⟨s * a.x, s * a.y, s * a.z⟩

/-- Unary minus of `glm::vec3`. -/
def neg (a : Vec3) : Vec3 := ⟨-a.x, -a.y, -a.z⟩

instance : Add Vec3 := ⟨add⟩
instance : Sub Vec3 := ⟨sub⟩
instance : Neg Vec3 := ⟨neg⟩
instance : HMul Vec3 ℝ Vec3 := ⟨scale⟩
instance : HMul ℝ Vec3 Vec3 := ⟨smul⟩

/-- The zero vector. -/
def zero : Vec3 := ⟨0, 0, 0⟩

end Vec3

namespace Vec4

/-- Component-wise `operator+` of `glm::vec4`. -/
def add (a b : Vec4) : Vec4 := ⟨a.x + b.x, a.y + b.y, a.z + b.z, a.w + b.w⟩

/-- The `operator*(vec4, float)` of GLM. -/
def scale (a : Vec4) (s : ℝ) : Vec4 := ⟨a.x * s, a.y * s, a.z * s, a.w * s⟩

instance : Add Vec4 := ⟨add⟩
instance : HMul Vec4 ℝ Vec4 := ⟨scale⟩

end Vec4

/-- The conversion `glm::vec4(v, w)`. -/
def vec4 (v : Vec3) (w : ℝ) : Vec4 := ⟨v.x, v.y, v.z, w⟩

/-- The truncating conversion `glm::vec3(v)` of a `vec4`. -/
def vec3 (v : Vec4) : Vec3 := ⟨v.x, v.y, v.z⟩

/-- The identity matrix `glm::mat4(1.0f)`. -/
def mat4One : Mat4 := ⟨⟨1, 0, 0, 0⟩, ⟨0, 1, 0, 0⟩, ⟨0, 0, 1, 0⟩, ⟨0, 0, 0, 1⟩⟩

/-- The product `mat4 * vec4` of GLM:
`(m[0] * v[0] + m[1] * v[1]) + (m[2] * v[2] + m[3] * v[3])`. -/
def Mat4.mulVec (m : Mat4) (v : Vec4) : Vec4 :=
  (m.c0 * v.x + m.c1 * v.y) + (m.c2 * v.z + m.c3 * v.w)

/-! ## GLM scalar and geometric functions -/

/-- The function `glm::radians`: degrees to radians. -/
def radians (degrees : ℝ) : ℝ := degrees * (Real.pi / 180)

/-- The function `glm::clamp(x, minVal, maxVal) = min(max(x, minVal), maxVal)`. -/
def clamp (x minVal maxVal : ℝ) : ℝ := min (max x minVal) maxVal

/-- The function `glm::inversesqrt(x) = 1 / sqrt(x)`. -/
def inversesqrt (x : ℝ) : ℝ := 1 / Real.sqrt x

/-- The function `glm::dot` on `vec3`. -/
def dot (a b : Vec3) : ℝ := a.x * b.x + a.y * b.y + a.z * b.z

/-- The function `glm::cross`. -/
def cross (a b : Vec3) : Vec3 :=
  ⟨a.y * b.z - b.y * a.z, a.z * b.x - b.z * a.x, a.x * b.y - b.x * a.y⟩

/-- The function `glm::length` on `vec3`. -/
def length (v : Vec3) : ℝ := Real.sqrt (dot v v)

/-- The function `glm::normalize(v) = v * inversesqrt(dot(v, v))`. -/
def normalize (v : Vec3) : Vec3 := v * inversesqrt (dot v v)

/-- The function `glm::rotate(m, angle, v)` of `gtc/matrix_transform`: `m` times the
rotation by `angle` radians about the axis `normalize(v)`. -/
def rotate (m : Mat4) (angle : ℝ) (v : Vec3) : Mat4 :=
  let c := Real.cos angle
  let s := Real.sin angle
  let axis := normalize v
  let temp := (1 - c) * axis
  let r00 := c + temp.x * axis.x
  let r01 := temp.x * axis.y + s * axis.z
  let r02 := temp.x * axis.z - s * axis.y
  let r10 := temp.y * axis.x - s * axis.z
  let r11 := c + temp.y * axis.y
  let r12 := temp.y * axis.z + s * axis.x
  let r20 := temp.z * axis.x + s * axis.y
  let r21 := temp.z * axis.y - s * axis.x
  let r22 := c + temp.z * axis.z
  ⟨m.c0 * r00 + m.c1 * r01 + m.c2 * r02,
   m.c0 * r10 + m.c1 * r11 + m.c2 * r12,
   m.c0 * r20 + m.c1 * r21 + m.c2 * r22,
   m.c3⟩

/-- The function `glm::lookAt(eye, center, up)`, which is `lookAtRH` in the default
(right-handed) configuration of GLM.  `Result[col][row]` of GLM is row `row` of column
`col` here. -/
def lookAt (eye center up : Vec3) : Mat4 :=
  let f := normalize (center - eye)
  let s := normalize (cross f up)
  let u := cross s f
  ⟨⟨s.x, u.x, -f.x, 0⟩,
   ⟨s.y, u.y, -f.y, 0⟩,
   ⟨s.z, u.z, -f.z, 0⟩,
   ⟨-dot s eye, -dot u eye, dot f eye, 1⟩⟩

/-- The function `glm::perspective(fovy, aspect, zNear, zFar)`, which is
`perspectiveRH_NO` in the default configuration of GLM (right-handed, depth range
`[-1, 1]`); `fovy` is in radians.  GLM guards it by a debug-only assertion on `aspect`,
which is left out. -/
def perspective (fovy aspect zNear zFar : ℝ) : Mat4 :=
  let tanHalfFovy := Real.tan (fovy / 2)
  ⟨⟨1 / (aspect * tanHalfFovy), 0, 0, 0⟩,
   ⟨0, 1 / tanHalfFovy, 0, 0⟩,
   ⟨0, 0, -(zFar + zNear) / (zFar - zNear), -1⟩,
   ⟨0, 0, -(2 * zFar * zNear) / (zFar - zNear), 0⟩⟩

/-! ## Movement flags -/

/-- The `enum class Direction_Movement`, carried by its underlying `int` value. -/
structure Direction_Movement where
  val : Int
  deriving DecidableEq

namespace Direction_Movement

def NONE : Direction_Movement := ⟨0⟩
def FORWARD : Direction_Movement := ⟨1⟩
def BACKWARD : Direction_Movement := ⟨2⟩
def LEFT : Direction_Movement := ⟨4⟩
def RIGHT : Direction_Movement := ⟨8⟩
def UP : Direction_Movement := ⟨16⟩
def DOWN : Direction_Movement := ⟨32⟩
def ROLL_LEFT : Direction_Movement := ⟨64⟩
def ROLL_RIGHT : Direction_Movement := ⟨128⟩

/-- The overloaded `operator~`. -/
def not (a : Direction_Movement) : Direction_Movement := ⟨Int.lnot a.val⟩

/-- The overloaded `operator|`. -/
def or (a b : Direction_Movement) : Direction_Movement := ⟨Int.lor a.val b.val⟩

/-- The overloaded `operator&`. -/
def and (a b : Direction_Movement) : Direction_Movement := ⟨Int.land a.val b.val⟩

instance : Complement Direction_Movement := ⟨not⟩
instance : OrOp Direction_Movement := ⟨or⟩
instance : AndOp Direction_Movement := ⟨and⟩

/-- The overloaded `operator|=`: the new value of `a` after `a |= b`, that is `a | b`. -/
def orAssign (a b : Direction_Movement) : Direction_Movement := a ||| b

/-- The overloaded `operator&=`: the new value of `a` after `a &= b`, that is `a & b`. -/
def andAssign (a b : Direction_Movement) : Direction_Movement := a &&& b

/-- The one-argument overload `HasFlag(value)`: `static_cast<bool>(value)`. -/
def HasFlag (value : Direction_Movement) : Bool := decide (value.val ≠ 0)

end Direction_Movement

/-- The two-argument `HasFlag(value, flag)`: `(value & flag) != NONE`. -/
def HasFlag (value flag : Direction_Movement) : Bool :=
  decide ((value &&& flag) ≠ Direction_Movement.NONE)

/-! ## The camera -/

/-- The data members of `class Camera`. -/
@[ext]
structure Camera where
  _needsUpdate : Bool
  Position : Vec3
  WorldUp : Vec3
  Front : Vec3
  Right : Vec3
  Up : Vec3
  Pitch : ℝ
  Yaw : ℝ
  Roll : ℝ
  MovementSpeed : ℝ
  MouseSensitivity : ℝ
  ScrollSensitivity : ℝ
  Zoom : ℝ
  RenderDistance : ℝ
  NearPlane : ℝ
  EnableZoom : Bool
  InvertY : Bool
  EnableRoll : Bool
  ConstrainPitch : Bool

namespace Camera

/-- The private member `Camera::updateCameraVectors`. -/
def updateCameraVectors (c : Camera) : Camera :=
  let front : Vec3 :=
    ⟨Real.cos (radians c.Yaw) * Real.cos (radians c.Pitch),
     Real.sin (radians c.Pitch),
     Real.sin (radians c.Yaw) * Real.cos (radians c.Pitch)⟩
  let Front := normalize front
  let right := normalize (cross Front c.WorldUp)
  let up := normalize (cross right Front)
  let rollMatrix := rotate mat4One (radians c.Roll) Front
  { c with
    Front := Front
    Right := normalize (vec3 (rollMatrix.mulVec (vec4 right 0)))
    Up := normalize (vec3 (rollMatrix.mulVec (vec4 up 0))) }

/-- The constructor `Camera(position, worldUp, pitch, yaw)`.  The member initialiser
list sets `Position`, `WorldUp`, `Pitch` and `Yaw`, the default member initialisers
set `_needsUpdate` and the options, and the body runs `updateCameraVectors`.  The
member `Roll` has no initialiser: it keeps whatever value `rollStorage` the storage
of the object held (`0` for an object of static storage duration). -/
def construct (rollStorage : ℝ) (position worldUp : Vec3) (pitch yaw : ℝ) : Camera :=
  updateCameraVectors
    { _needsUpdate := false
      Position := position
      WorldUp := worldUp
      Front := Vec3.zero
      Right := Vec3.zero
      Up := Vec3.zero
      Pitch := pitch
      Yaw := yaw
      Roll := rollStorage
      MovementSpeed := 10
      MouseSensitivity := 1 / 10
      ScrollSensitivity := 1
      Zoom := 45
      RenderDistance := 1000
      NearPlane := 1 / 10
      EnableZoom := true
      InvertY := false
      EnableRoll := true
      ConstrainPitch := true }

/-- The member `Camera::getViewMatrix`: `glm::lookAt(Position, Position + Front, Up)`. -/
def getViewMatrix (c : Camera) : Mat4 :=
  lookAt c.Position (c.Position + c.Front) c.Up

/-- The member `Camera::getProjectionMatrix`:
`glm::perspective(glm::radians(Zoom), aspectRatio, 0.1f, 1000.0f)`. -/
def getProjectionMatrix (c : Camera) (aspectRatio : ℝ) : Mat4 :=
  perspective (radians c.Zoom) aspectRatio (1 / 10) 1000

/-- The member `Camera::processMovement`. -/
def processMovement (c : Camera) (direction : Direction_Movement) (deltaTime : ℝ) :
    Camera :=
  if direction = Direction_Movement.NONE then c
  else
    let velocity := c.MovementSpeed * deltaTime
    let c := if HasFlag direction Direction_Movement.FORWARD
      then { c with Position := c.Position + c.Front * velocity } else c
    let c := if HasFlag direction Direction_Movement.BACKWARD
      then { c with Position := c.Position - c.Front * velocity } else c
    let c := if HasFlag direction Direction_Movement.LEFT
      then { c with Position := c.Position - c.Right * velocity } else c
    let c := if HasFlag direction Direction_Movement.RIGHT
      then { c with Position := c.Position + c.Right * velocity } else c
    let c := if HasFlag direction Direction_Movement.UP
      then { c with Position := c.Position + c.Up * velocity } else c
    let c := if HasFlag direction Direction_Movement.DOWN
      then { c with Position := c.Position - c.Up * velocity } else c
    let c := if c.EnableRoll then
        let c := if HasFlag direction Direction_Movement.ROLL_LEFT
          then { c with Roll := c.Roll - 25 * velocity, _needsUpdate := true } else c
        let c := if HasFlag direction Direction_Movement.ROLL_RIGHT
          then { c with Roll := c.Roll + 25 * velocity, _needsUpdate := true } else c
        c
      else c
    if c._needsUpdate then { updateCameraVectors c with _needsUpdate := false } else c

/-- The member `Camera::processMouseMovement`. -/
def processMouseMovement (c : Camera) (deltaX deltaY : ℝ) : Camera :=
  let c := { c with Yaw := c.Yaw + deltaX * c.MouseSensitivity }
  let c := if c.InvertY
    then { c with Pitch := c.Pitch - deltaY * c.MouseSensitivity }
    else { c with Pitch := c.Pitch + deltaY * c.MouseSensitivity }
  let c := if c.ConstrainPitch
    then { c with Pitch := clamp c.Pitch (-89) 89 } else c
  updateCameraVectors c

/-- The member `Camera::processMouseScroll`. -/
def processMouseScroll (c : Camera) (deltaScroll : ℝ) : Camera :=
  if !c.EnableZoom then c
  else { c with Zoom := clamp (c.Zoom - c.ScrollSensitivity * deltaScroll) 1 90 }

end Camera

/-! ## Definitions used to state and prove the properties -/

/-- The camera states reachable from the constructor through the public member
functions `processMovement`, `processMouseMovement` and `processMouseScroll`. -/
inductive Reachable : Camera → Prop
  | construct (rollStorage : ℝ) (position worldUp : Vec3) (pitch yaw : ℝ) :
      Reachable (Camera.construct rollStorage position worldUp pitch yaw)
  | processMovement (c : Camera) (direction : Direction_Movement) (deltaTime : ℝ) :
      Reachable c → Reachable (c.processMovement direction deltaTime)
  | processMouseMovement (c : Camera) (deltaX deltaY : ℝ) :
      Reachable c → Reachable (c.processMouseMovement deltaX deltaY)
  | processMouseScroll (c : Camera) (deltaScroll : ℝ) :
      Reachable c → Reachable (c.processMouseScroll deltaScroll)

/-- The vectors `Front`, `Right`, `Up` of a camera have length 1 and are pairwise
orthogonal. -/
def Orthonormal (c : Camera) : Prop :=
  length c.Front = 1 ∧ length c.Right = 1 ∧ length c.Up = 1 ∧
  dot c.Front c.Right = 0 ∧ dot c.Front c.Up = 0 ∧ dot c.Right c.Up = 0

/-- The direction `(cos yaw cos pitch, sin pitch, sin yaw cos pitch)` that
`updateCameraVectors` builds from the angles (in degrees) before normalising. -/
def frontDir (yaw pitch : ℝ) : Vec3 :=
  ⟨Real.cos (radians yaw) * Real.cos (radians pitch),
   Real.sin (radians pitch),
   Real.sin (radians yaw) * Real.cos (radians pitch)⟩

/-- The roll-free `right` of `updateCameraVectors`. -/
def rightDir (front worldUp : Vec3) : Vec3 := normalize (cross front worldUp)

/-- The roll-free `up` of `updateCameraVectors`. -/
def upDir (front worldUp : Vec3) : Vec3 := normalize (cross (rightDir front worldUp) front)

/-- The roll-free `right` rotated by `angle` radians about `front`. -/
def rolledRight (front worldUp : Vec3) (angle : ℝ) : Vec3 :=
  rightDir front worldUp * Real.cos angle + cross front (rightDir front worldUp) * Real.sin angle

/-- The roll-free `up` rotated by `angle` radians about `front`. -/
def rolledUp (front worldUp : Vec3) (angle : ℝ) : Vec3 :=
  upDir front worldUp * Real.cos angle + cross front (upDir front worldUp) * Real.sin angle

/-- The six translation statements of `processMovement`, for a given `velocity`. -/
def translateStage (c : Camera) (direction : Direction_Movement) (velocity : ℝ) : Camera :=
  let c := if HasFlag direction Direction_Movement.FORWARD
    then { c with Position := c.Position + c.Front * velocity } else c
  let c := if HasFlag direction Direction_Movement.BACKWARD
    then { c with Position := c.Position - c.Front * velocity } else c
  let c := if HasFlag direction Direction_Movement.LEFT
    then { c with Position := c.Position - c.Right * velocity } else c
  let c := if HasFlag direction Direction_Movement.RIGHT
    then { c with Position := c.Position + c.Right * velocity } else c
  let c := if HasFlag direction Direction_Movement.UP
    then { c with Position := c.Position + c.Up * velocity } else c
  let c := if HasFlag direction Direction_Movement.DOWN
    then { c with Position := c.Position - c.Up * velocity } else c
  c

/-- The roll block of `processMovement`, for a given `velocity`. -/
def rollStage (c : Camera) (direction : Direction_Movement) (velocity : ℝ) : Camera :=
  if c.EnableRoll then
    let c := if HasFlag direction Direction_Movement.ROLL_LEFT
      then { c with Roll := c.Roll - 25 * velocity, _needsUpdate := true } else c
    let c := if HasFlag direction Direction_Movement.ROLL_RIGHT
      then { c with Roll := c.Roll + 25 * velocity, _needsUpdate := true } else c
    c
  else c

/-- The final block of `processMovement`: recompute the basis when it is marked dirty. -/
def refreshStage (c : Camera) : Camera :=
  if c._needsUpdate then { c.updateCameraVectors with _needsUpdate := false } else c

/-- A number that is `1` when the flag is present in the intent and `0` otherwise. -/
def flagValue (direction flag : Direction_Movement) : ℝ :=
  if HasFlag direction flag then 1 else 0

/-- The basis stored in the camera is the one `updateCameraVectors` computes from the
stored angles and `WorldUp`. -/
def Consistent (c : Camera) : Prop := c.updateCameraVectors = c

/-- The camera `Camera()` of the delegating default constructor: position `(0, 0, 3)`,
`worldUp = (0, 1, 0)`, `pitch = 0`, `yaw = -90`. -/
def defaultCamera (rollStorage : ℝ) : Camera :=
  Camera.construct rollStorage ⟨0, 0, 3⟩ ⟨0, 1, 0⟩ 0 (-90)

/-- A camera built with `worldUp = (1, 0, 0)`, `pitch = 0` and `yaw = 0`: it looks along
the `x` axis, which is also its world up axis. -/
def xUpCamera : Camera := Camera.construct 0 ⟨0, 0, 0⟩ ⟨1, 0, 0⟩ 0 0

/-! ## Keyboard handling (`main.cpp`) -/

/-- The constant `GLFW_RELEASE` of `glfw3.h`. -/
def GLFW_RELEASE : Int := 0

/-- The constant `GLFW_PRESS` of `glfw3.h`. -/
def GLFW_PRESS : Int := 1

/-- The constant `GLFW_REPEAT` of `glfw3.h`. -/
def GLFW_REPEAT : Int := 2

/-- The function `processCameraDirectionMovement` of `main.cpp`; the global
`cameraDirFlag` it updates is passed in and its new value returned. -/
def processCameraDirectionMovement (cameraDirFlag direction : Direction_Movement)
    (action : Int) : Direction_Movement :=
  if action = GLFW_PRESS then Direction_Movement.orAssign cameraDirFlag direction
  else if action = GLFW_RELEASE then Direction_Movement.andAssign cameraDirFlag (~~~ direction)
  else cameraDirFlag

/-- The eight keys that `keyboard_input_callback` maps to a movement flag. -/
inductive MovementKey where
  | W | S | A | D | SPACE | LEFT_CONTROL | Q | E
  deriving DecidableEq

/-- The flag `keyboard_input_callback` passes on for each movement key. -/
def MovementKey.flag : MovementKey → Direction_Movement
  | .W => Direction_Movement.FORWARD
  | .S => Direction_Movement.BACKWARD
  | .A => Direction_Movement.LEFT
  | .D => Direction_Movement.RIGHT
  | .SPACE => Direction_Movement.UP
  | .LEFT_CONTROL => Direction_Movement.DOWN
  | .Q => Direction_Movement.ROLL_LEFT
  | .E => Direction_Movement.ROLL_RIGHT

/-- The effect of `keyboard_input_callback` on `cameraDirFlag` for an event
`(key, action)` of a movement key. -/
def keyboard_input_callback (cameraDirFlag : Direction_Movement)
    (event : MovementKey × Int) : Direction_Movement :=
  processCameraDirectionMovement cameraDirFlag event.1.flag event.2

/-- The value of `cameraDirFlag` after a sequence of movement-key events, starting from
`cameraDirFlag = NONE`. -/
def flagsAfter (events : List (MovementKey × Int)) : Direction_Movement :=
  events.foldl keyboard_input_callback Direction_Movement.NONE

/-- The action of the most recent press or release event of `key` in `events`, if any. -/
def lastPressRelease (events : List (MovementKey × Int)) (key : MovementKey) : Option Int :=
  ((events.filter
    (fun e => e.1 = key ∧ (e.2 = GLFW_PRESS ∨ e.2 = GLFW_RELEASE))).getLast?).map Prod.snd

/-! ## Mouse handling (`main.cpp`) -/

/-- The constant `SCREEN_WIDTH` of `main.cpp`. -/
def SCREEN_WIDTH : Int := 1280

/-- The constant `SCREEN_HEIGHT` of `main.cpp`. -/
def SCREEN_HEIGHT : Int := 720

/-- The globals of `main.cpp` that `mouse_movement_callback` reads and writes. -/
structure MouseGlobals where
  firstMouseMove : Bool
  lastMouseX : ℝ
  lastMouseY : ℝ
  camera : Camera

/-- The values of the globals at start-up: `firstMouseMove = true`, the last mouse position
at the centre of the screen, and the global `camera` (static storage, so its `Roll`
storage is zero). -/
def startGlobals : MouseGlobals :=
  { firstMouseMove := true
    lastMouseX := (SCREEN_WIDTH : ℝ) * (1 / 2)
    lastMouseY := (SCREEN_HEIGHT : ℝ) * (1 / 2)
    camera := Camera.construct 0 ⟨-15, 25, 35⟩ ⟨0, 1, 0⟩ (-40) (-70) }

/-- The function `mouse_movement_callback` of `main.cpp` on the globals; the GLFW calls
that switch the cursor mode are left out. -/
def mouse_movement_callback (g : MouseGlobals) (mousePosX mousePosY : ℝ) : MouseGlobals :=
  let g := if g.firstMouseMove
    then { g with lastMouseX := mousePosX, lastMouseY := mousePosY, firstMouseMove := false }
    else g
  let deltaX := mousePosX - g.lastMouseX
  let deltaY := g.lastMouseY - mousePosY
  let g := { g with lastMouseX := mousePosX, lastMouseY := mousePosY }
  { g with camera := g.camera.processMouseMovement deltaX deltaY }

/-- The globals after a sequence of cursor events. -/
def afterMouseEvents (g : MouseGlobals) (events : List (ℝ × ℝ)) : MouseGlobals :=
  events.foldl (fun g e => mouse_movement_callback g e.1 e.2) g

/-! ## Primitives (`primitives.h`) -/

/-- The type `glm::vec2` over the reals. -/
structure Vec2 where
  x : ℝ
  y : ℝ

/-- The `struct Vertex`. -/
structure Vertex where
  position : Vec3
  normal : Vec3
  color : Vec3
  textureCoord : Vec2

/-- The data members `_vertices` and `_indices` of `class Primitive`. -/
structure Primitive where
  _vertices : List Vertex
  _indices : List Nat

/-- The member `_defaultColor = glm::vec3(1.0f)` of `class Primitive`. -/
def _defaultColor : Vec3 := ⟨1, 1, 1⟩

/-- Addition of two `unsigned` values (32 bits, wrapping). -/
def uadd (a b : Nat) : Nat := (a + b) % 2 ^ 32

/-- Multiplication of two `unsigned` values (32 bits, wrapping). -/
def umul (a b : Nat) : Nat := (a * b) % 2 ^ 32

/-- The loop `for (unsigned i = start; cond(i); ++i) body`, run for at most `fuel`
iterations from the counter value `i`; `none` when the fuel runs out before the loop
condition fails. -/
def forLoop {σ : Type} (cond : Nat → Bool) (body : Nat → σ → Option σ) :
    Nat → Nat → σ → Option σ
  | 0, _, _ => none
  | fuel + 1, i, s =>
    if cond i then
      match body i s with
      | some s' => forLoop cond body fuel (uadd i 1) s'
      | none => none
    else some s

/-- The constructor `Sphere(radius, horizontalLines, verticalLines)`: the vertex and
index lists it builds, every loop being given `fuel` iterations. -/
def Sphere (fuel : Nat) (radius : ℝ) (horizontalLines verticalLines : Nat) :
    Option Primitive :=
  if horizontalLines < 2 ∨ verticalLines < 2 then some ⟨[], []⟩
  else
    match forLoop (fun i => decide (i ≤ horizontalLines)) (fun i vertices =>
        let texY := (i : ℝ) / (horizontalLines : ℝ)
        let phi := (1 - texY) * Real.pi
        forLoop (fun j => decide (j ≤ verticalLines)) (fun j vertices =>
          let texX := (j : ℝ) / (verticalLines : ℝ)
          let theta := texX * (2 * Real.pi)
          let normal : Vec3 :=
            ⟨Real.sin phi * Real.cos theta, Real.cos phi, Real.sin phi * Real.sin theta⟩
          some (vertices ++ [⟨normal * radius, normal, _defaultColor, ⟨texX, texY⟩⟩]))
          fuel 0 vertices) fuel 0 [] with
    | none => none
    | some vertices =>
      match forLoop (fun i => decide (i < horizontalLines)) (fun i indices =>
          forLoop (fun j => decide (j < verticalLines)) (fun j indices =>
            let a := uadd (umul i (uadd verticalLines 1)) j
            let b := uadd (uadd a verticalLines) 1
            some (indices ++ [a, b, uadd b 1, a, uadd b 1, uadd a 1]))
            fuel 0 indices) fuel 0 [] with
      | none => none
      | some indices => some ⟨vertices, indices⟩

/-- The constructor `Torus(outerRadius, innerRadius, horizontalLines, verticalLines)`: the
vertex and index lists it builds, every loop being given `fuel` iterations. -/
def Torus (fuel : Nat) (outerRadius innerRadius : ℝ) (horizontalLines verticalLines : Nat) :
    Option Primitive :=
  if horizontalLines < 2 ∨ verticalLines < 2 then some ⟨[], []⟩
  else
    match forLoop (fun i => decide (i ≤ horizontalLines)) (fun i vertices =>
        let texY := (i : ℝ) / (horizontalLines : ℝ)
        let phi := (1 - texY) * (2 * Real.pi)
        forLoop (fun j => decide (j ≤ verticalLines)) (fun j vertices =>
          let texX := (j : ℝ) / (verticalLines : ℝ)
          let theta := texX * (2 * Real.pi)
          let x := (outerRadius + innerRadius * Real.cos theta) * Real.cos phi
          let y := innerRadius * Real.sin theta
          let z := (outerRadius + innerRadius * Real.cos theta) * Real.sin phi
          let pos : Vec3 := ⟨x, y, z⟩
          let normal : Vec3 :=
            ⟨Real.cos theta * Real.cos phi, Real.sin theta, Real.cos theta * Real.sin phi⟩
          some (vertices ++ [⟨pos, normal, _defaultColor, ⟨texX, texY⟩⟩]))
          fuel 0 vertices) fuel 0 [] with
    | none => none
    | some vertices =>
      match forLoop (fun i => decide (i < horizontalLines)) (fun i indices =>
          forLoop (fun j => decide (j < verticalLines)) (fun j indices =>
            let a := uadd (umul i (uadd verticalLines 1)) j
            let b := uadd (uadd a verticalLines) 1
            some (indices ++ [a, b, uadd b 1, a, uadd b 1, uadd a 1]))
            fuel 0 indices) fuel 0 [] with
      | none => none
      | some indices => some ⟨vertices, indices⟩

/-! ## Further definitions used to state the properties -/

/-- The eight single-bit flags of `Direction_Movement`. -/
def movementFlags : List Direction_Movement :=
  [Direction_Movement.FORWARD, Direction_Movement.BACKWARD, Direction_Movement.LEFT,
   Direction_Movement.RIGHT, Direction_Movement.UP, Direction_Movement.DOWN,
   Direction_Movement.ROLL_LEFT, Direction_Movement.ROLL_RIGHT]

/-- The values reachable from `NONE` by setting (`i |= f`) and clearing (`i &= ~f`) the
eight flags. -/
inductive FlagReachable : Direction_Movement → Prop
  | none : FlagReachable Direction_Movement.NONE
  | set (i f : Direction_Movement) : FlagReachable i → f ∈ movementFlags →
      FlagReachable (Direction_Movement.orAssign i f)
  | clear (i f : Direction_Movement) : FlagReachable i → f ∈ movementFlags →
      FlagReachable (Direction_Movement.andAssign i (~~~ f))

/-- The camera after a sequence of `processMouseMovement` calls. -/
def afterMouseMoves (c : Camera) (moves : List (ℝ × ℝ)) : Camera :=
  moves.foldl (fun c m => c.processMouseMovement m.1 m.2) c

/-- The camera after a sequence of `processMouseScroll` calls. -/
def afterScrolls (c : Camera) (scrolls : List ℝ) : Camera :=
  scrolls.foldl Camera.processMouseScroll c

/-! ## Vector algebra -/

namespace Vec3

@[simp] theorem add_x (a b : Vec3) : (a + b).x = a.x + b.x := rfl
@[simp] theorem add_y (a b : Vec3) : (a + b).y = a.y + b.y := rfl
@[simp] theorem add_z (a b : Vec3) : (a + b).z = a.z + b.z := rfl
@[simp] theorem sub_x (a b : Vec3) : (a - b).x = a.x - b.x := rfl
@[simp] theorem sub_y (a b : Vec3) : (a - b).y = a.y - b.y := rfl
@[simp] theorem sub_z (a b : Vec3) : (a - b).z = a.z - b.z := rfl
@[simp] theorem neg_x (a : Vec3) : (-a).x = -a.x := rfl
@[simp] theorem neg_y (a : Vec3) : (-a).y = -a.y := rfl
@[simp] theorem neg_z (a : Vec3) : (-a).z = -a.z := rfl
@[simp] theorem scale_x (a : Vec3) (s : ℝ) : (a * s).x = a.x * s := rfl
@[simp] theorem scale_y (a : Vec3) (s : ℝ) : (a * s).y = a.y * s := rfl
@[simp] theorem scale_z (a : Vec3) (s : ℝ) : (a * s).z = a.z * s := rfl
@[simp] theorem smul_x (s : ℝ) (a : Vec3) : (s * a).x = s * a.x := rfl
@[simp] theorem smul_y (s : ℝ) (a : Vec3) : (s * a).y = s * a.y := rfl
@[simp] theorem smul_z (s : ℝ) (a : Vec3) : (s * a).z = s * a.z := rfl
@[simp] theorem zero_x : zero.x = 0 := rfl
@[simp] theorem zero_y : zero.y = 0 := rfl
@[simp] theorem zero_z : zero.z = 0 := rfl

end Vec3

namespace Vec4

@[simp] theorem v4_add_x (a b : Vec4) : (a + b).x = a.x + b.x := rfl
@[simp] theorem v4_add_y (a b : Vec4) : (a + b).y = a.y + b.y := rfl
@[simp] theorem v4_add_z (a b : Vec4) : (a + b).z = a.z + b.z := rfl
@[simp] theorem v4_add_w (a b : Vec4) : (a + b).w = a.w + b.w := rfl
@[simp] theorem v4_scale_x (a : Vec4) (s : ℝ) : (a * s).x = a.x * s := rfl
@[simp] theorem v4_scale_y (a : Vec4) (s : ℝ) : (a * s).y = a.y * s := rfl
@[simp] theorem v4_scale_z (a : Vec4) (s : ℝ) : (a * s).z = a.z * s := rfl
@[simp] theorem v4_scale_w (a : Vec4) (s : ℝ) : (a * s).w = a.w * s := rfl

end Vec4

theorem dot_self_nonneg (v : Vec3) : 0 ≤ dot v v := by
  unfold dot
  nlinarith [mul_self_nonneg v.x, mul_self_nonneg v.y, mul_self_nonneg v.z]

theorem dot_self_eq_zero_iff (v : Vec3) : dot v v = 0 ↔ v = Vec3.zero := by
  constructor
  · intro h
    unfold dot at h
    have hx : v.x = 0 := by nlinarith [mul_self_nonneg v.x, mul_self_nonneg v.y, mul_self_nonneg v.z]
    have hy : v.y = 0 := by nlinarith [mul_self_nonneg v.x, mul_self_nonneg v.y, mul_self_nonneg v.z]
    have hz : v.z = 0 := by nlinarith [mul_self_nonneg v.x, mul_self_nonneg v.y, mul_self_nonneg v.z]
    ext <;> simp [hx, hy, hz]
  · rintro rfl
    simp [dot]

theorem normalize_zero : normalize Vec3.zero = Vec3.zero := by
  ext <;> simp [normalize]

theorem normalize_of_dot_self_eq_one {v : Vec3} (h : dot v v = 1) : normalize v = v := by
  ext <;> simp [normalize, inversesqrt, h]

theorem dot_scale_scale (a b : Vec3) (k l : ℝ) : dot (a * k) (b * l) = k * l * dot a b := by
  simp only [dot, Vec3.scale_x, Vec3.scale_y, Vec3.scale_z]
  ring

theorem inversesqrt_sq {d : ℝ} (hd : 0 < d) : inversesqrt d * inversesqrt d * d = 1 := by
  unfold inversesqrt
  have h0 : Real.sqrt d ≠ 0 := (Real.sqrt_pos.mpr hd).ne'
  have h1 : Real.sqrt d * Real.sqrt d = d := Real.mul_self_sqrt hd.le
  field_simp

theorem dot_normalize_self {v : Vec3} (h : v ≠ Vec3.zero) :
    dot (normalize v) (normalize v) = 1 := by
  have hd : 0 < dot v v :=
    lt_of_le_of_ne (dot_self_nonneg v) (fun e => h ((dot_self_eq_zero_iff v).mp e.symm))
  unfold normalize
  rw [dot_scale_scale]
  exact inversesqrt_sq hd

theorem length_eq_one_iff (v : Vec3) : length v = 1 ↔ dot v v = 1 := by
  unfold length
  constructor
  · intro h
    have := Real.mul_self_sqrt (dot_self_nonneg v)
    rw [h] at this
    linarith
  · intro h
    rw [h, Real.sqrt_one]

theorem dot_frontDir (yaw pitch : ℝ) : dot (frontDir yaw pitch) (frontDir yaw pitch) = 1 := by
  simp only [dot, frontDir]
  nlinarith [Real.cos_sq_add_sin_sq (radians yaw), Real.cos_sq_add_sin_sq (radians pitch)]

/-! ## The rotated frame -/

theorem dot_cross_left (a b : Vec3) : dot (cross a b) a = 0 := by
  simp only [dot, cross]
  ring

theorem dot_cross_right (a b : Vec3) : dot (cross a b) b = 0 := by
  simp only [dot, cross]
  ring

theorem dot_comm (a b : Vec3) : dot a b = dot b a := by
  simp only [dot]
  ring

/-- Lagrange's identity. -/
theorem dot_cross_cross (a b : Vec3) :
    dot (cross a b) (cross a b) = dot a a * dot b b - dot a b * dot a b := by
  simp only [dot, cross]
  ring

/-- The vector that `rotate mat4One angle axis` sends `(v, 0)` to (Rodrigues' formula
for the normalised axis). -/
theorem rotate_mulVec (angle : ℝ) (axis v : Vec3) :
    vec3 ((rotate mat4One angle axis).mulVec (vec4 v 0)) =
      v * Real.cos angle
        + normalize axis * ((1 - Real.cos angle) * dot (normalize axis) v)
        + cross (normalize axis) v * Real.sin angle := by
  ext <;>
  · simp only [vec3, vec4, rotate, mat4One, Mat4.mulVec, dot, cross, Vec3.add_x, Vec3.add_y,
      Vec3.add_z, Vec3.scale_x, Vec3.scale_y, Vec3.scale_z, Vec3.smul_x, Vec3.smul_y,
      Vec3.smul_z, Vec4.v4_add_x, Vec4.v4_add_y, Vec4.v4_add_z,
      Vec4.v4_scale_x, Vec4.v4_scale_y, Vec4.v4_scale_z]
    ring

/-- Algebra of the rolled frame: for a unit `f` and a unit `r` orthogonal to it, the
vectors `R = r cos θ + (f × r) sin θ` and `U = (r × f) cos θ + r sin θ` are unit vectors,
orthogonal to `f` and to each other, with `R × U = -f`, `R × f = U` and `f × U = R`. -/
theorem rolled_frame (f r : Vec3) (c s : ℝ) (hf : dot f f = 1) (hr : dot r r = 1)
    (hrf : dot r f = 0) (hcs : c ^ 2 + s ^ 2 = 1) :
    dot (r * c + cross f r * s) (r * c + cross f r * s) = 1 ∧
    dot (cross r f * c + r * s) (cross r f * c + r * s) = 1 ∧
    dot f (r * c + cross f r * s) = 0 ∧
    dot f (cross r f * c + r * s) = 0 ∧
    dot (r * c + cross f r * s) (cross r f * c + r * s) = 0 ∧
    cross (r * c + cross f r * s) (cross r f * c + r * s) = -f ∧
    cross (r * c + cross f r * s) f = cross r f * c + r * s ∧
    cross f (cross r f * c + r * s) = r * c + cross f r * s := by
  obtain ⟨f1, f2, f3⟩ := f
  obtain ⟨r1, r2, r3⟩ := r
  simp only [dot] at hf hr hrf
  refine ⟨?_, ?_, ?_, ?_, ?_, ?_, ?_, ?_⟩
  · simp only [dot, cross, Vec3.add_x, Vec3.add_y, Vec3.add_z, Vec3.scale_x, Vec3.scale_y,
      Vec3.scale_z]
    linear_combination (c ^ 2 + s ^ 2 * (f1 * f1 + f2 * f2 + f3 * f3)) * hr + s ^ 2 * hf
      - s ^ 2 * (r1 * f1 + r2 * f2 + r3 * f3) * hrf + hcs
  · simp only [dot, cross, Vec3.add_x, Vec3.add_y, Vec3.add_z, Vec3.scale_x, Vec3.scale_y,
      Vec3.scale_z]
    linear_combination (s ^ 2 + c ^ 2 * (f1 * f1 + f2 * f2 + f3 * f3)) * hr + c ^ 2 * hf
      - c ^ 2 * (r1 * f1 + r2 * f2 + r3 * f3) * hrf + hcs
  · simp only [dot, cross, Vec3.add_x, Vec3.add_y, Vec3.add_z, Vec3.scale_x, Vec3.scale_y,
      Vec3.scale_z]
    linear_combination c * hrf
  · simp only [dot, cross, Vec3.add_x, Vec3.add_y, Vec3.add_z, Vec3.scale_x, Vec3.scale_y,
      Vec3.scale_z]
    linear_combination s * hrf
  · simp only [dot, cross, Vec3.add_x, Vec3.add_y, Vec3.add_z, Vec3.scale_x, Vec3.scale_y,
      Vec3.scale_z]
    linear_combination (-(c * s * (r1 * r1 + r2 * r2 + r3 * r3))) * hf
      + c * s * (r1 * f1 + r2 * f2 + r3 * f3) * hrf
  · ext
    · simp only [cross, Vec3.add_x, Vec3.add_y, Vec3.add_z, Vec3.scale_x, Vec3.scale_y,
        Vec3.scale_z, Vec3.neg_x]
      linear_combination (c ^ 2 + s ^ 2) * r1 * hrf - (c ^ 2 + s ^ 2) * f1 * hr - f1 * hcs
    · simp only [cross, Vec3.add_x, Vec3.add_y, Vec3.add_z, Vec3.scale_x, Vec3.scale_y,
        Vec3.scale_z, Vec3.neg_y]
      linear_combination (c ^ 2 + s ^ 2) * r2 * hrf - (c ^ 2 + s ^ 2) * f2 * hr - f2 * hcs
    · simp only [cross, Vec3.add_x, Vec3.add_y, Vec3.add_z, Vec3.scale_x, Vec3.scale_y,
        Vec3.scale_z, Vec3.neg_z]
      linear_combination (c ^ 2 + s ^ 2) * r3 * hrf - (c ^ 2 + s ^ 2) * f3 * hr - f3 * hcs
  · ext
    · simp only [cross, Vec3.add_x, Vec3.add_y, Vec3.add_z, Vec3.scale_x, Vec3.scale_y,
        Vec3.scale_z]
      linear_combination s * r1 * hf - s * f1 * hrf
    · simp only [cross, Vec3.add_x, Vec3.add_y, Vec3.add_z, Vec3.scale_x, Vec3.scale_y,
        Vec3.scale_z]
      linear_combination s * r2 * hf - s * f2 * hrf
    · simp only [cross, Vec3.add_x, Vec3.add_y, Vec3.add_z, Vec3.scale_x, Vec3.scale_y,
        Vec3.scale_z]
      linear_combination s * r3 * hf - s * f3 * hrf
  · ext
    · simp only [cross, Vec3.add_x, Vec3.add_y, Vec3.add_z, Vec3.scale_x, Vec3.scale_y,
        Vec3.scale_z]
      linear_combination c * r1 * hf - c * f1 * hrf
    · simp only [cross, Vec3.add_x, Vec3.add_y, Vec3.add_z, Vec3.scale_x, Vec3.scale_y,
        Vec3.scale_z]
      linear_combination c * r2 * hf - c * f2 * hrf
    · simp only [cross, Vec3.add_x, Vec3.add_y, Vec3.add_z, Vec3.scale_x, Vec3.scale_y,
        Vec3.scale_z]
      linear_combination c * r3 * hf - c * f3 * hrf

theorem dot_scale_left (a b : Vec3) (k : ℝ) : dot (a * k) b = k * dot a b := by
  simp only [dot, Vec3.scale_x, Vec3.scale_y, Vec3.scale_z]
  ring

theorem dot_rightDir_self {f w : Vec3} (h : cross f w ≠ Vec3.zero) :
    dot (rightDir f w) (rightDir f w) = 1 :=
  dot_normalize_self h

theorem dot_rightDir_front (f w : Vec3) : dot (rightDir f w) f = 0 := by
  unfold rightDir normalize
  rw [dot_scale_left, dot_cross_left, mul_zero]

theorem upDir_eq {f w : Vec3} (hf : dot f f = 1) (h : cross f w ≠ Vec3.zero) :
    upDir f w = cross (rightDir f w) f := by
  unfold upDir
  apply normalize_of_dot_self_eq_one
  rw [dot_cross_cross, dot_rightDir_self h, hf, dot_rightDir_front]
  norm_num

theorem rolledUp_eq {f w : Vec3} (hf : dot f f = 1) (h : cross f w ≠ Vec3.zero) (angle : ℝ) :
    rolledUp f w angle =
      cross (rightDir f w) f * Real.cos angle + rightDir f w * Real.sin angle := by
  have hr := dot_rightDir_self h
  have hrf := dot_rightDir_front f w
  unfold rolledUp
  rw [upDir_eq hf h]
  generalize rightDir f w = r at hr hrf
  obtain ⟨f1, f2, f3⟩ := f
  obtain ⟨r1, r2, r3⟩ := r
  simp only [dot] at hf hr hrf
  ext
  · simp only [cross, Vec3.add_x, Vec3.scale_x]
    linear_combination Real.sin angle * r1 * hf - Real.sin angle * f1 * hrf
  · simp only [cross, Vec3.add_y, Vec3.scale_y]
    linear_combination Real.sin angle * r2 * hf - Real.sin angle * f2 * hrf
  · simp only [cross, Vec3.add_z, Vec3.scale_z]
    linear_combination Real.sin angle * r3 * hf - Real.sin angle * f3 * hrf

/-- Closed form of `updateCameraVectors` away from the degenerate configuration. -/
theorem updateCameraVectors_eq (c : Camera)
    (h : cross (frontDir c.Yaw c.Pitch) c.WorldUp ≠ Vec3.zero) :
    c.updateCameraVectors.Front = frontDir c.Yaw c.Pitch ∧
    c.updateCameraVectors.Right =
      rolledRight (frontDir c.Yaw c.Pitch) c.WorldUp (radians c.Roll) ∧
    c.updateCameraVectors.Up =
      rolledUp (frontDir c.Yaw c.Pitch) c.WorldUp (radians c.Roll) := by
  have hf := dot_frontDir c.Yaw c.Pitch
  have hnf := normalize_of_dot_self_eq_one hf
  have hr := dot_rightDir_self h
  have hrf := dot_rightDir_front (frontDir c.Yaw c.Pitch) c.WorldUp
  have hfr : dot (frontDir c.Yaw c.Pitch) (rightDir (frontDir c.Yaw c.Pitch) c.WorldUp) = 0 := by
    rw [dot_comm, hrf]
  have hu := upDir_eq hf h
  have hfu : dot (frontDir c.Yaw c.Pitch) (upDir (frontDir c.Yaw c.Pitch) c.WorldUp) = 0 := by
    rw [hu, dot_comm, dot_cross_right]
  have hcs : Real.cos (radians c.Roll) ^ 2 + Real.sin (radians c.Roll) ^ 2 = 1 :=
    Real.cos_sq_add_sin_sq _
  have e1 : c.updateCameraVectors.Front = normalize (frontDir c.Yaw c.Pitch) := rfl
  have e2 : c.updateCameraVectors.Right =
      normalize (vec3 ((rotate mat4One (radians c.Roll)
        (normalize (frontDir c.Yaw c.Pitch))).mulVec
          (vec4 (rightDir (normalize (frontDir c.Yaw c.Pitch)) c.WorldUp) 0))) := rfl
  have e3 : c.updateCameraVectors.Up =
      normalize (vec3 ((rotate mat4One (radians c.Roll)
        (normalize (frontDir c.Yaw c.Pitch))).mulVec
          (vec4 (upDir (normalize (frontDir c.Yaw c.Pitch)) c.WorldUp) 0))) := rfl
  rw [hnf] at e1 e2 e3
  rw [rotate_mulVec, hnf] at e2 e3
  rw [hfr] at e2
  rw [hfu] at e3
  have pR : rightDir (frontDir c.Yaw c.Pitch) c.WorldUp * Real.cos (radians c.Roll)
      + frontDir c.Yaw c.Pitch * ((1 - Real.cos (radians c.Roll)) * 0)
      + cross (frontDir c.Yaw c.Pitch) (rightDir (frontDir c.Yaw c.Pitch) c.WorldUp)
          * Real.sin (radians c.Roll)
      = rolledRight (frontDir c.Yaw c.Pitch) c.WorldUp (radians c.Roll) := by
    unfold rolledRight
    ext <;> simp
  have pU : upDir (frontDir c.Yaw c.Pitch) c.WorldUp * Real.cos (radians c.Roll)
      + frontDir c.Yaw c.Pitch * ((1 - Real.cos (radians c.Roll)) * 0)
      + cross (frontDir c.Yaw c.Pitch) (upDir (frontDir c.Yaw c.Pitch) c.WorldUp)
          * Real.sin (radians c.Roll)
      = rolledUp (frontDir c.Yaw c.Pitch) c.WorldUp (radians c.Roll) := by
    unfold rolledUp
    ext <;> simp
  rw [pR] at e2
  rw [pU] at e3
  have F := rolled_frame _ _ _ _ hf hr hrf hcs
  refine ⟨e1, ?_, ?_⟩
  · rw [e2]
    exact normalize_of_dot_self_eq_one F.1
  · rw [e3, rolledUp_eq hf h]
    exact normalize_of_dot_self_eq_one F.2.1

/-! ## Movement -/

theorem processMovement_stages (c : Camera) (direction : Direction_Movement) (deltaTime : ℝ) :
    c.processMovement direction deltaTime =
      if direction = Direction_Movement.NONE then c
      else refreshStage (rollStage (translateStage c direction (c.MovementSpeed * deltaTime))
        direction (c.MovementSpeed * deltaTime)) := rfl

theorem translateStage_eq (c : Camera) (direction : Direction_Movement) (velocity : ℝ) :
    translateStage c direction velocity =
      { c with
        Position := c.Position + velocity *
          ((flagValue direction Direction_Movement.FORWARD
              - flagValue direction Direction_Movement.BACKWARD) * c.Front
            + (flagValue direction Direction_Movement.RIGHT
              - flagValue direction Direction_Movement.LEFT) * c.Right
            + (flagValue direction Direction_Movement.UP
              - flagValue direction Direction_Movement.DOWN) * c.Up) } := by
  unfold translateStage flagValue
  generalize HasFlag direction Direction_Movement.FORWARD = b1
  generalize HasFlag direction Direction_Movement.BACKWARD = b2
  generalize HasFlag direction Direction_Movement.LEFT = b3
  generalize HasFlag direction Direction_Movement.RIGHT = b4
  generalize HasFlag direction Direction_Movement.UP = b5
  generalize HasFlag direction Direction_Movement.DOWN = b6
  obtain ⟨n, P, W, F, R, U, pitch, yaw, roll, ms, mo, sc, zoom, rd, np, ez, iy, er, cp⟩ := c
  cases b1 <;> cases b2 <;> cases b3 <;> cases b4 <;> cases b5 <;> cases b6 <;>
    simp only [if_true, if_false, Bool.false_eq_true, Camera.mk.injEq, true_and, and_true,
      Vec3.ext_iff, Vec3.add_x, Vec3.add_y, Vec3.add_z, Vec3.sub_x, Vec3.sub_y, Vec3.sub_z,
      Vec3.scale_x, Vec3.scale_y, Vec3.scale_z, Vec3.smul_x, Vec3.smul_y, Vec3.smul_z] <;>
    refine ⟨?_, ?_, ?_⟩ <;> ring

theorem rollStage_eq (c : Camera) (direction : Direction_Movement) (velocity : ℝ) :
    rollStage c direction velocity =
      if c.EnableRoll && (HasFlag direction Direction_Movement.ROLL_LEFT
          || HasFlag direction Direction_Movement.ROLL_RIGHT) then
        { c with
          Roll := c.Roll + 25 * velocity * (flagValue direction Direction_Movement.ROLL_RIGHT
            - flagValue direction Direction_Movement.ROLL_LEFT)
          _needsUpdate := true }
      else c := by
  unfold rollStage flagValue
  generalize HasFlag direction Direction_Movement.ROLL_LEFT = b7
  generalize HasFlag direction Direction_Movement.ROLL_RIGHT = b8
  obtain ⟨n, P, W, F, R, U, pitch, yaw, roll, ms, mo, sc, zoom, rd, np, ez, iy, er, cp⟩ := c
  cases er <;> cases b7 <;> cases b8 <;>
    simp only [if_true, if_false, Bool.false_eq_true, Bool.and_true, Bool.and_false,
      Bool.or_true, Bool.or_false, Bool.true_and, Bool.false_and, Camera.mk.injEq, true_and,
      and_true] <;>
    ring

theorem refreshStage_clean {c : Camera} (h : c._needsUpdate = false) : refreshStage c = c := by
  simp [refreshStage, h]

theorem refreshStage_dirty {c : Camera} (h : c._needsUpdate = true) :
    refreshStage c = { c.updateCameraVectors with _needsUpdate := false } := by
  simp [refreshStage, h]

/-! ## The basis is kept in step with the angles -/

theorem updateCameraVectors_Position (c : Camera) (p : Vec3) :
    Camera.updateCameraVectors { c with Position := p }
      = { c.updateCameraVectors with Position := p } := rfl

theorem updateCameraVectors_Zoom (c : Camera) (z : ℝ) :
    Camera.updateCameraVectors { c with Zoom := z }
      = { c.updateCameraVectors with Zoom := z } := rfl

theorem updateCameraVectors_needsUpdate (c : Camera) (b : Bool) :
    Camera.updateCameraVectors { c with _needsUpdate := b }
      = { c.updateCameraVectors with _needsUpdate := b } := rfl

theorem refreshStage_invariant (c : Camera)
    (h : c._needsUpdate = false → c.updateCameraVectors = c) :
    (refreshStage c).updateCameraVectors = refreshStage c ∧
      (refreshStage c)._needsUpdate = false := by
  cases hn : c._needsUpdate
  · rw [refreshStage_clean hn]
    exact ⟨h hn, hn⟩
  · rw [refreshStage_dirty hn]
    exact ⟨rfl, rfl⟩

theorem processMovement_invariant (c : Camera) (direction : Direction_Movement) (deltaTime : ℝ)
    (h : c.updateCameraVectors = c ∧ c._needsUpdate = false) :
    (c.processMovement direction deltaTime).updateCameraVectors
        = c.processMovement direction deltaTime ∧
      (c.processMovement direction deltaTime)._needsUpdate = false := by
  rw [processMovement_stages]
  by_cases hd : direction = Direction_Movement.NONE
  · rw [if_pos hd]
    exact h
  · rw [if_neg hd]
    apply refreshStage_invariant
    rw [rollStage_eq]
    split
    · intro hn
      cases hn
    · intro _
      rw [translateStage_eq, updateCameraVectors_Position, h.1]

theorem processMouseMovement_invariant (c : Camera) (deltaX deltaY : ℝ)
    (h : c._needsUpdate = false) :
    (c.processMouseMovement deltaX deltaY).updateCameraVectors
        = c.processMouseMovement deltaX deltaY ∧
      (c.processMouseMovement deltaX deltaY)._needsUpdate = false := by
  refine ⟨rfl, ?_⟩
  unfold Camera.processMouseMovement
  cases c.InvertY <;> cases c.ConstrainPitch <;> exact h

theorem processMouseScroll_invariant (c : Camera) (deltaScroll : ℝ)
    (h : c.updateCameraVectors = c ∧ c._needsUpdate = false) :
    (c.processMouseScroll deltaScroll).updateCameraVectors = c.processMouseScroll deltaScroll ∧
      (c.processMouseScroll deltaScroll)._needsUpdate = false := by
  unfold Camera.processMouseScroll
  split
  · exact h
  · refine ⟨?_, h.2⟩
    rw [updateCameraVectors_Zoom, h.1]

theorem reachable_invariant (c : Camera) (h : Reachable c) :
    c.updateCameraVectors = c ∧ c._needsUpdate = false := by
  induction h with
  | construct rollStorage position worldUp pitch yaw => exact ⟨rfl, rfl⟩
  | processMovement c direction deltaTime _ ih => exact processMovement_invariant c _ _ ih
  | processMouseMovement c deltaX deltaY _ ih => exact processMouseMovement_invariant c _ _ ih.2
  | processMouseScroll c deltaScroll _ ih => exact processMouseScroll_invariant c _ ih

/-! ## Orthonormality of the recomputed basis -/

/-- The frame stored by `updateCameraVectors` when `WorldUp` is not parallel to the
viewing direction. -/
theorem updateCameraVectors_frame (c : Camera)
    (h : cross (frontDir c.Yaw c.Pitch) c.WorldUp ≠ Vec3.zero) :
    Orthonormal c.updateCameraVectors ∧
      cross c.updateCameraVectors.Right c.updateCameraVectors.Up
        = -c.updateCameraVectors.Front ∧
      cross c.updateCameraVectors.Right c.updateCameraVectors.Front
        = c.updateCameraVectors.Up ∧
      cross c.updateCameraVectors.Front c.updateCameraVectors.Up
        = c.updateCameraVectors.Right := by
  obtain ⟨eF, eR, eU⟩ := updateCameraVectors_eq c h
  have hf := dot_frontDir c.Yaw c.Pitch
  have F := rolled_frame _ _ (Real.cos (radians c.Roll)) (Real.sin (radians c.Roll)) hf
    (dot_rightDir_self h) (dot_rightDir_front _ _) (Real.cos_sq_add_sin_sq _)
  unfold Orthonormal
  rw [eF, eR, eU, rolledUp_eq hf h]
  unfold rolledRight
  simp only [length_eq_one_iff]
  exact ⟨⟨hf, F.1, F.2.1, F.2.2.1, F.2.2.2.1, F.2.2.2.2.1⟩, F.2.2.2.2.2.1, F.2.2.2.2.2.2.1,
    F.2.2.2.2.2.2.2⟩

/-- In the degenerate configuration the stored `Right` and `Up` are the zero vector in
real arithmetic. -/
theorem updateCameraVectors_degenerate (c : Camera)
    (h : cross (frontDir c.Yaw c.Pitch) c.WorldUp = Vec3.zero) :
    c.updateCameraVectors.Right = Vec3.zero ∧ c.updateCameraVectors.Up = Vec3.zero := by
  have hnf := normalize_of_dot_self_eq_one (dot_frontDir c.Yaw c.Pitch)
  have hz : ∀ (a : Vec3) (angle : ℝ),
      vec3 ((rotate mat4One angle a).mulVec (vec4 Vec3.zero 0)) = Vec3.zero := by
    intro a angle
    rw [rotate_mulVec]
    ext <;> simp [dot, cross]
  have hc : ∀ a : Vec3, cross Vec3.zero a = Vec3.zero := by
    intro a
    ext <;> simp [cross]
  have e2 : c.updateCameraVectors.Right =
      normalize (vec3 ((rotate mat4One (radians c.Roll)
        (normalize (frontDir c.Yaw c.Pitch))).mulVec
          (vec4 (normalize (cross (normalize (frontDir c.Yaw c.Pitch)) c.WorldUp)) 0))) := rfl
  have e3 : c.updateCameraVectors.Up =
      normalize (vec3 ((rotate mat4One (radians c.Roll)
        (normalize (frontDir c.Yaw c.Pitch))).mulVec
          (vec4 (normalize (cross (normalize (cross (normalize (frontDir c.Yaw c.Pitch))
            c.WorldUp)) (normalize (frontDir c.Yaw c.Pitch)))) 0))) := rfl
  rw [hnf, h, normalize_zero] at e2 e3
  rw [hz, normalize_zero] at e2
  rw [hc, normalize_zero, hz, normalize_zero] at e3
  exact ⟨e2, e3⟩

theorem radians_zero : radians 0 = 0 := by
  unfold radians
  ring

theorem radians_ninety : radians 90 = Real.pi / 2 := by
  unfold radians
  ring

theorem radians_neg_ninety : radians (-90) = -(Real.pi / 2) := by
  unfold radians
  ring

theorem frontDir_zero_zero : frontDir 0 0 = ⟨1, 0, 0⟩ := by
  ext <;> simp [frontDir, radians_zero]

theorem frontDir_neg_ninety_zero : frontDir (-90) 0 = ⟨0, 0, -1⟩ := by
  ext <;> simp [frontDir, radians_zero, radians_neg_ninety]

theorem length_zero : length Vec3.zero = 0 := by
  simp [length, dot]

theorem cross_front_default : cross (frontDir (-90) 0) ⟨0, 1, 0⟩ = ⟨1, 0, 0⟩ := by
  rw [frontDir_neg_ninety_zero]
  ext <;> simp [cross]

theorem defaultCamera_nondegenerate :
    cross (frontDir (-90) 0) ⟨0, 1, 0⟩ ≠ Vec3.zero := by
  rw [cross_front_default]
  intro h
  have := congrArg Vec3.x h
  simp [Vec3.zero] at this

/-! ## C1: orthonormality in reachable states -/

/-- C1 (counterexample). The constructor accepts any `worldUp`.  With `worldUp = (1, 0, 0)`,
`yaw = 0` and `pitch = 0` (inside `[-89, 89]`, `ConstrainPitch` enabled) the viewing
direction `(1, 0, 0)` is parallel to `worldUp`; the constructor has run
`updateCameraVectors`, yet `Right` does not have length 1, so the basis is not
orthonormal. -/
theorem xUpCamera_not_orthonormal :
    Reachable xUpCamera ∧ xUpCamera.ConstrainPitch = true ∧
      -89 ≤ xUpCamera.Pitch ∧ xUpCamera.Pitch ≤ 89 ∧
      length xUpCamera.Right ≠ 1 ∧ ¬ Orthonormal xUpCamera := by
  have hR : xUpCamera.Right = Vec3.zero := by
    refine (updateCameraVectors_degenerate _ ?_).1
    show cross (frontDir 0 0) ⟨1, 0, 0⟩ = Vec3.zero
    rw [frontDir_zero_zero]
    ext <;> simp [cross]
  have hl : length xUpCamera.Right ≠ 1 := by
    rw [hR, length_zero]
    norm_num
  refine ⟨Reachable.construct _ _ _ _ _, rfl, ?_, ?_, hl, fun h => hl h.2.1⟩
  · show (-89 : ℝ) ≤ 0
    norm_num
  · show (0 : ℝ) ≤ 89
    norm_num

/-- With the vertical `worldUp = (0, 1, 0)` and a pitch inside `[-89, 89]` the viewing
direction is not parallel to `worldUp`. -/
theorem constrained_pitch_nondegenerate (yaw pitch : ℝ) (h1 : -89 ≤ pitch) (h2 : pitch ≤ 89) :
    cross (frontDir yaw pitch) ⟨0, 1, 0⟩ ≠ Vec3.zero := by
  have hpi := Real.pi_pos
  have hcos : 0 < Real.cos (radians pitch) := by
    apply Real.cos_pos_of_mem_Ioo
    unfold radians
    constructor <;> nlinarith
  intro h
  have hx := congrArg Vec3.x h
  have hz := congrArg Vec3.z h
  simp only [cross, frontDir, Vec3.zero] at hx hz
  have hs : Real.sin (radians yaw) = 0 := by
    have : Real.sin (radians yaw) * Real.cos (radians pitch) = 0 := by linarith
    rcases mul_eq_zero.mp this with e | e
    · exact e
    · exact absurd e hcos.ne'
  have hc : Real.cos (radians yaw) = 0 := by
    have : Real.cos (radians yaw) * Real.cos (radians pitch) = 0 := by linarith
    rcases mul_eq_zero.mp this with e | e
    · exact e
    · exact absurd e hcos.ne'
  have := Real.cos_sq_add_sin_sq (radians yaw)
  rw [hs, hc] at this
  norm_num at this

/-- C1 (amended). In every state reachable from the constructor through
`processMovement`, `processMouseMovement` and `processMouseScroll` in which `WorldUp` is
not parallel to the viewing direction given by `Yaw` and `Pitch` (their cross product is
not the zero vector), `Front`, `Right` and `Up` have length 1 and are pairwise
orthogonal; this covers every reachable state with `WorldUp = (0, 1, 0)` and `Pitch` in
`[-89, 89]`. -/
theorem reachable_orthonormal (c : Camera) (hr : Reachable c)
    (h : cross (frontDir c.Yaw c.Pitch) c.WorldUp ≠ Vec3.zero ∨
      (c.WorldUp = ⟨0, 1, 0⟩ ∧ -89 ≤ c.Pitch ∧ c.Pitch ≤ 89)) : Orthonormal c := by
  have hnd : cross (frontDir c.Yaw c.Pitch) c.WorldUp ≠ Vec3.zero := by
    rcases h with h | ⟨hw, h1, h2⟩
    · exact h
    · rw [hw]
      exact constrained_pitch_nondegenerate _ _ h1 h2
  have e := (reachable_invariant c hr).1
  have F := (updateCameraVectors_frame c hnd).1
  rw [e] at F
  exact F

/-- C1 (witness): the camera of the default constructor. -/
theorem reachable_orthonormal_witness :
    Reachable (defaultCamera 0) ∧
      cross (frontDir (defaultCamera 0).Yaw (defaultCamera 0).Pitch) (defaultCamera 0).WorldUp
        ≠ Vec3.zero ∧
      Orthonormal (defaultCamera 0) :=
  ⟨Reachable.construct _ _ _ _ _, defaultCamera_nondegenerate,
    reachable_orthonormal (defaultCamera 0) (Reachable.construct _ _ _ _ _)
      (Or.inl defaultCamera_nondegenerate)⟩

/-! ## C2: the recomputed basis is a right-handed orthonormal frame -/

/-- C2. For every `Yaw`, `Pitch`, `Roll` and `WorldUp` such that `cross(Front, WorldUp)`
is not the zero vector, where `Front = (cos yaw cos pitch, sin pitch, sin yaw cos pitch)`,
`updateCameraVectors` stores unit, pairwise orthogonal `Front`, `Right`, `Up` with
`cross(Right, Up) = -Front`, `cross(Right, Front) = Up` and `cross(Front, Up) = Right`,
whatever the roll angle. -/
theorem updateCameraVectors_right_handed (c : Camera)
    (h : cross (frontDir c.Yaw c.Pitch) c.WorldUp ≠ Vec3.zero) :
    c.updateCameraVectors.Front = frontDir c.Yaw c.Pitch ∧
      Orthonormal c.updateCameraVectors ∧
      cross c.updateCameraVectors.Right c.updateCameraVectors.Up
        = -c.updateCameraVectors.Front ∧
      cross c.updateCameraVectors.Right c.updateCameraVectors.Front
        = c.updateCameraVectors.Up ∧
      cross c.updateCameraVectors.Front c.updateCameraVectors.Up
        = c.updateCameraVectors.Right :=
  ⟨(updateCameraVectors_eq c h).1, updateCameraVectors_frame c h⟩

/-- C2 (witness): a camera with `yaw = -90`, `pitch = 0`, roll `30` and `worldUp = (0, 1, 0)`. -/
theorem updateCameraVectors_right_handed_witness :
    cross (frontDir (defaultCamera 30).Yaw (defaultCamera 30).Pitch) (defaultCamera 30).WorldUp
        ≠ Vec3.zero ∧
      Orthonormal (defaultCamera 30).updateCameraVectors ∧
      cross (defaultCamera 30).updateCameraVectors.Right (defaultCamera 30).updateCameraVectors.Up
        = -(defaultCamera 30).updateCameraVectors.Front :=
  ⟨defaultCamera_nondegenerate,
    (updateCameraVectors_right_handed (defaultCamera 30) defaultCamera_nondegenerate).2.1,
    (updateCameraVectors_right_handed (defaultCamera 30) defaultCamera_nondegenerate).2.2.1⟩

/-! ## C3: the basis is never stale -/

/-- C3. In every state reachable from the constructor by `processMovement`,
`processMouseMovement` and `processMouseScroll` calls, the stored `Front`, `Right` and
`Up` are the ones `updateCameraVectors` computes from the current `Yaw`, `Pitch`, `Roll`
and `WorldUp`, and the private flag `_needsUpdate` is false. -/
theorem reachable_basis_not_stale (c : Camera) (h : Reachable c) :
    c.Front = c.updateCameraVectors.Front ∧ c.Right = c.updateCameraVectors.Right ∧
      c.Up = c.updateCameraVectors.Up ∧ c._needsUpdate = false := by
  obtain ⟨e, hn⟩ := reachable_invariant c h
  refine ⟨?_, ?_, ?_, hn⟩
  · exact (congrArg Camera.Front e).symm
  · exact (congrArg Camera.Right e).symm
  · exact (congrArg Camera.Up e).symm

/-- C3 (witness): the default camera after a mouse move, a roll and a scroll. -/
theorem reachable_basis_not_stale_witness :
    Reachable ((((defaultCamera 0).processMouseMovement 100 20).processMovement
        (Direction_Movement.FORWARD ||| Direction_Movement.ROLL_LEFT) (1 / 60)).processMouseScroll
          2) ∧
      ((((defaultCamera 0).processMouseMovement 100 20).processMovement
        (Direction_Movement.FORWARD ||| Direction_Movement.ROLL_LEFT) (1 / 60)).processMouseScroll
          2)._needsUpdate = false :=
  ⟨Reachable.processMouseScroll _ _ (Reachable.processMovement _ _ _
      (Reachable.processMouseMovement _ _ _ (Reachable.construct _ _ _ _ _))),
    (reachable_basis_not_stale _ (Reachable.processMouseScroll _ _
      (Reachable.processMovement _ _ _
        (Reachable.processMouseMovement _ _ _ (Reachable.construct _ _ _ _ _))))).2.2.2⟩

/-! ## C4: construction -/

/-- The basis of the default camera, for the value `rollStorage` its uninitialised member
`Roll` happens to hold. -/
theorem defaultCamera_basis (rollStorage : ℝ) :
    (defaultCamera rollStorage).Front = ⟨0, 0, -1⟩ ∧
      (defaultCamera rollStorage).Right
        = ⟨Real.cos (radians rollStorage), -Real.sin (radians rollStorage), 0⟩ ∧
      (defaultCamera rollStorage).Up
        = ⟨Real.sin (radians rollStorage), Real.cos (radians rollStorage), 0⟩ := by
  have hf : dot (⟨0, 0, -1⟩ : Vec3) ⟨0, 0, -1⟩ = 1 := by simp [dot]
  have hc : cross (⟨0, 0, -1⟩ : Vec3) ⟨0, 1, 0⟩ = ⟨1, 0, 0⟩ := by
    rw [← frontDir_neg_ninety_zero]
    exact cross_front_default
  have hnd : cross (⟨0, 0, -1⟩ : Vec3) ⟨0, 1, 0⟩ ≠ Vec3.zero := by
    rw [← frontDir_neg_ninety_zero]
    exact defaultCamera_nondegenerate
  have hr : rightDir ⟨0, 0, -1⟩ ⟨0, 1, 0⟩ = ⟨1, 0, 0⟩ := by
    unfold rightDir
    rw [hc]
    exact normalize_of_dot_self_eq_one (by simp [dot])
  obtain ⟨eF, eR, eU⟩ := updateCameraVectors_eq
    { _needsUpdate := false, Position := ⟨0, 0, 3⟩, WorldUp := ⟨0, 1, 0⟩, Front := Vec3.zero,
      Right := Vec3.zero, Up := Vec3.zero, Pitch := 0, Yaw := -90, Roll := rollStorage,
      MovementSpeed := 10, MouseSensitivity := 1 / 10, ScrollSensitivity := 1, Zoom := 45,
      RenderDistance := 1000, NearPlane := 1 / 10, EnableZoom := true, InvertY := false,
      EnableRoll := true, ConstrainPitch := true } defaultCamera_nondegenerate
  refine ⟨?_, ?_, ?_⟩
  · exact eF.trans frontDir_neg_ninety_zero
  · refine eR.trans ?_
    show rolledRight (frontDir (-90) 0) ⟨0, 1, 0⟩ (radians rollStorage) = _
    rw [frontDir_neg_ninety_zero]
    unfold rolledRight
    rw [hr]
    ext <;> simp [cross]
  · refine eU.trans ?_
    show rolledUp (frontDir (-90) 0) ⟨0, 1, 0⟩ (radians rollStorage) = _
    rw [frontDir_neg_ninety_zero, rolledUp_eq hf hnd, hr]
    ext <;> simp [cross]

/-- C4 (the code at the failing input). The constructor never assigns `Roll`: the
constructed camera has whatever `Roll` its storage held, and the basis is computed from
that value.  With zeroed storage the default camera has `Front = (0, 0, -1)`,
`Right = (1, 0, 0)`, `Up = (0, 1, 0)`; with storage holding `90` it has `Roll = 90`,
`Right = (0, -1, 0)` and `Up = (1, 0, 0)`. -/
theorem construct_roll_uninitialised :
    (∀ (rollStorage : ℝ) (position worldUp : Vec3) (pitch yaw : ℝ),
        (Camera.construct rollStorage position worldUp pitch yaw).Roll = rollStorage) ∧
      ((defaultCamera 0).Front = ⟨0, 0, -1⟩ ∧ (defaultCamera 0).Right = ⟨1, 0, 0⟩ ∧
        (defaultCamera 0).Up = ⟨0, 1, 0⟩) ∧
      ((defaultCamera 90).Roll = 90 ∧ (defaultCamera 90).Front = ⟨0, 0, -1⟩ ∧
        (defaultCamera 90).Right = ⟨0, -1, 0⟩ ∧ (defaultCamera 90).Up = ⟨1, 0, 0⟩ ∧
        (defaultCamera 90).Right ≠ ⟨1, 0, 0⟩) := by
  obtain ⟨f0, r0, u0⟩ := defaultCamera_basis 0
  obtain ⟨f9, r9, u9⟩ := defaultCamera_basis 90
  rw [radians_zero, Real.cos_zero, Real.sin_zero, neg_zero] at r0
  rw [radians_zero, Real.cos_zero, Real.sin_zero] at u0
  rw [radians_ninety, Real.cos_pi_div_two, Real.sin_pi_div_two] at r9 u9
  refine ⟨fun _ _ _ _ _ => rfl, ⟨f0, r0, u0⟩, rfl, f9, r9, u9, ?_⟩
  rw [r9]
  intro h
  have := congrArg Vec3.x h
  norm_num at this

/-! ## C5, C6, C7: translation -/

theorem refreshStage_Position (c : Camera) : (refreshStage c).Position = c.Position := by
  unfold refreshStage
  split <;> rfl

theorem rollStage_Position (c : Camera) (direction : Direction_Movement) (velocity : ℝ) :
    (rollStage c direction velocity).Position = c.Position := by
  rw [rollStage_eq]
  split <;> rfl

theorem flagValue_NONE (flag : Direction_Movement) :
    flagValue Direction_Movement.NONE flag = 0 := by
  have h : Int.land 0 flag.val = 0 := by
    cases flag.val with
    | ofNat n => exact congrArg Int.ofNat (Nat.zero_and n)
    | negSucc n =>
      have hn : Nat.ldiff 0 n = 0 :=
        Nat.eq_of_testBit_eq (fun i => by rw [Nat.testBit_ldiff]; simp)
      exact congrArg Int.ofNat hn
  have h2 : HasFlag Direction_Movement.NONE flag = false := by
    unfold HasFlag
    have : Direction_Movement.NONE &&& flag = Direction_Movement.NONE :=
      congrArg Direction_Movement.mk h
    simp [this]
  simp [flagValue, h2]

/-- Closed form of the position after `processMovement`. -/
theorem processMovement_Position_eq (c : Camera) (direction : Direction_Movement)
    (deltaTime : ℝ) :
    (c.processMovement direction deltaTime).Position =
      c.Position + (c.MovementSpeed * deltaTime) *
        ((flagValue direction Direction_Movement.FORWARD
            - flagValue direction Direction_Movement.BACKWARD) * c.Front
          + (flagValue direction Direction_Movement.RIGHT
            - flagValue direction Direction_Movement.LEFT) * c.Right
          + (flagValue direction Direction_Movement.UP
            - flagValue direction Direction_Movement.DOWN) * c.Up) := by
  rw [processMovement_stages]
  by_cases hd : direction = Direction_Movement.NONE
  · rw [if_pos hd, hd]
    simp only [flagValue_NONE]
    ext <;> simp
  · rw [if_neg hd, refreshStage_Position, rollStage_Position, translateStage_eq]

/-- C5. For every camera state, intent and `deltaTime`, `processMovement` leaves
`Position` equal to the old `Position` plus
`(MovementSpeed * deltaTime) * ((F - B) * Front + (R - L) * Right + (U - D) * Up)`, each
letter being 1 when the flag is present and 0 otherwise; from `Position = (0, 0, 3)`,
`Front = (0, 0, -1)`, `MovementSpeed = 10`, the intent `FORWARD` and `deltaTime = 1` give
the position `(0, 0, -7)`. -/
theorem processMovement_position (c : Camera) (direction : Direction_Movement)
    (deltaTime : ℝ) :
    (c.processMovement direction deltaTime).Position =
        c.Position + (c.MovementSpeed * deltaTime) *
          ((flagValue direction Direction_Movement.FORWARD
              - flagValue direction Direction_Movement.BACKWARD) * c.Front
            + (flagValue direction Direction_Movement.RIGHT
              - flagValue direction Direction_Movement.LEFT) * c.Right
            + (flagValue direction Direction_Movement.UP
              - flagValue direction Direction_Movement.DOWN) * c.Up) ∧
      (Camera.processMovement
          { c with Position := ⟨0, 0, 3⟩, Front := ⟨0, 0, -1⟩, MovementSpeed := 10 }
          Direction_Movement.FORWARD 1).Position = ⟨0, 0, -7⟩ := by
  refine ⟨processMovement_Position_eq c direction deltaTime, ?_⟩
  rw [processMovement_Position_eq]
  have h1 : HasFlag Direction_Movement.FORWARD Direction_Movement.FORWARD = true := by decide
  have h2 : HasFlag Direction_Movement.FORWARD Direction_Movement.BACKWARD = false := by decide
  have h3 : HasFlag Direction_Movement.FORWARD Direction_Movement.LEFT = false := by decide
  have h4 : HasFlag Direction_Movement.FORWARD Direction_Movement.RIGHT = false := by decide
  have h5 : HasFlag Direction_Movement.FORWARD Direction_Movement.UP = false := by decide
  have h6 : HasFlag Direction_Movement.FORWARD Direction_Movement.DOWN = false := by decide
  simp only [flagValue, h1, h2, h3, h4, h5, h6]
  ext
  · simp
  · simp
  · simp
    norm_num

/-- C6. For every camera state and every `deltaTime`, `processMovement` with the intent
`NONE` returns the state unchanged, every field included, without recomputing the
basis. -/
theorem processMovement_none (c : Camera) (deltaTime : ℝ) :
    c.processMovement Direction_Movement.NONE deltaTime = c := by
  unfold Camera.processMovement
  exact if_pos rfl

/-- C7. For every camera state and every `deltaTime`, `processMovement` with the intent
`{FORWARD, BACKWARD}`, `{LEFT, RIGHT}` or `{UP, DOWN}` leaves `Position` unchanged. -/
theorem processMovement_opposing_cancel (c : Camera) (deltaTime : ℝ) :
    (c.processMovement (Direction_Movement.FORWARD ||| Direction_Movement.BACKWARD)
        deltaTime).Position = c.Position ∧
      (c.processMovement (Direction_Movement.LEFT ||| Direction_Movement.RIGHT)
        deltaTime).Position = c.Position ∧
      (c.processMovement (Direction_Movement.UP ||| Direction_Movement.DOWN)
        deltaTime).Position = c.Position := by
  refine ⟨?_, ?_, ?_⟩
  · rw [processMovement_Position_eq]
    have h1 : HasFlag (Direction_Movement.FORWARD ||| Direction_Movement.BACKWARD)
        Direction_Movement.FORWARD = true := by decide
    have h2 : HasFlag (Direction_Movement.FORWARD ||| Direction_Movement.BACKWARD)
        Direction_Movement.BACKWARD = true := by decide
    have h3 : HasFlag (Direction_Movement.FORWARD ||| Direction_Movement.BACKWARD)
        Direction_Movement.LEFT = false := by decide
    have h4 : HasFlag (Direction_Movement.FORWARD ||| Direction_Movement.BACKWARD)
        Direction_Movement.RIGHT = false := by decide
    have h5 : HasFlag (Direction_Movement.FORWARD ||| Direction_Movement.BACKWARD)
        Direction_Movement.UP = false := by decide
    have h6 : HasFlag (Direction_Movement.FORWARD ||| Direction_Movement.BACKWARD)
        Direction_Movement.DOWN = false := by decide
    simp only [flagValue, h1, h2, h3, h4, h5, h6]
    ext <;> simp
  · rw [processMovement_Position_eq]
    have h1 : HasFlag (Direction_Movement.LEFT ||| Direction_Movement.RIGHT)
        Direction_Movement.FORWARD = false := by decide
    have h2 : HasFlag (Direction_Movement.LEFT ||| Direction_Movement.RIGHT)
        Direction_Movement.BACKWARD = false := by decide
    have h3 : HasFlag (Direction_Movement.LEFT ||| Direction_Movement.RIGHT)
        Direction_Movement.LEFT = true := by decide
    have h4 : HasFlag (Direction_Movement.LEFT ||| Direction_Movement.RIGHT)
        Direction_Movement.RIGHT = true := by decide
    have h5 : HasFlag (Direction_Movement.LEFT ||| Direction_Movement.RIGHT)
        Direction_Movement.UP = false := by decide
    have h6 : HasFlag (Direction_Movement.LEFT ||| Direction_Movement.RIGHT)
        Direction_Movement.DOWN = false := by decide
    simp only [flagValue, h1, h2, h3, h4, h5, h6]
    ext <;> simp
  · rw [processMovement_Position_eq]
    have h1 : HasFlag (Direction_Movement.UP ||| Direction_Movement.DOWN)
        Direction_Movement.FORWARD = false := by decide
    have h2 : HasFlag (Direction_Movement.UP ||| Direction_Movement.DOWN)
        Direction_Movement.BACKWARD = false := by decide
    have h3 : HasFlag (Direction_Movement.UP ||| Direction_Movement.DOWN)
        Direction_Movement.LEFT = false := by decide
    have h4 : HasFlag (Direction_Movement.UP ||| Direction_Movement.DOWN)
        Direction_Movement.RIGHT = false := by decide
    have h5 : HasFlag (Direction_Movement.UP ||| Direction_Movement.DOWN)
        Direction_Movement.UP = true := by decide
    have h6 : HasFlag (Direction_Movement.UP ||| Direction_Movement.DOWN)
        Direction_Movement.DOWN = true := by decide
    simp only [flagValue, h1, h2, h3, h4, h5, h6]
    ext <;> simp

/-! ## C8, C9, C10: time step zero and roll -/

theorem translateStage_zero (c : Camera) (direction : Direction_Movement) :
    translateStage c direction 0 = c := by
  rw [translateStage_eq]
  ext <;> simp

/-- C8. For every camera state whose basis is consistent with its angles and for every
intent (roll flags included, `EnableRoll` true or false), `processMovement(intent, 0)`
leaves `Position`, `Yaw`, `Pitch`, `Roll`, `Front`, `Right` and `Up` unchanged. -/
theorem processMovement_zero_deltaTime (c : Camera) (direction : Direction_Movement)
    (h : Consistent c) :
    (c.processMovement direction 0).Position = c.Position ∧
      (c.processMovement direction 0).Yaw = c.Yaw ∧
      (c.processMovement direction 0).Pitch = c.Pitch ∧
      (c.processMovement direction 0).Roll = c.Roll ∧
      (c.processMovement direction 0).Front = c.Front ∧
      (c.processMovement direction 0).Right = c.Right ∧
      (c.processMovement direction 0).Up = c.Up := by
  unfold Consistent at h
  rw [processMovement_stages]
  by_cases hd : direction = Direction_Movement.NONE
  · rw [if_pos hd]
    exact ⟨rfl, rfl, rfl, rfl, rfl, rfl, rfl⟩
  · rw [if_neg hd, mul_zero, translateStage_zero, rollStage_eq]
    split
    · have e : ({ c with
          Roll := c.Roll + 25 * 0 * (flagValue direction Direction_Movement.ROLL_RIGHT
            - flagValue direction Direction_Movement.ROLL_LEFT)
          _needsUpdate := true } : Camera) = { c with _needsUpdate := true } := by
        ext <;> simp
      rw [e, refreshStage_dirty rfl, updateCameraVectors_needsUpdate, h]
      exact ⟨rfl, rfl, rfl, rfl, rfl, rfl, rfl⟩
    · cases hn : c._needsUpdate
      · rw [refreshStage_clean hn]
        exact ⟨rfl, rfl, rfl, rfl, rfl, rfl, rfl⟩
      · rw [refreshStage_dirty hn, h]
        exact ⟨rfl, rfl, rfl, rfl, rfl, rfl, rfl⟩

/-- C8 (witness): the default camera with the intent `{FORWARD, ROLL_LEFT}`. -/
theorem processMovement_zero_deltaTime_witness :
    Consistent (defaultCamera 0) ∧
      ((defaultCamera 0).processMovement
        (Direction_Movement.FORWARD ||| Direction_Movement.ROLL_LEFT) 0).Roll
          = (defaultCamera 0).Roll ∧
      ((defaultCamera 0).processMovement
        (Direction_Movement.FORWARD ||| Direction_Movement.ROLL_LEFT) 0).Right
          = (defaultCamera 0).Right :=
  ⟨rfl,
    (processMovement_zero_deltaTime (defaultCamera 0)
      (Direction_Movement.FORWARD ||| Direction_Movement.ROLL_LEFT) rfl).2.2.2.1,
    (processMovement_zero_deltaTime (defaultCamera 0)
      (Direction_Movement.FORWARD ||| Direction_Movement.ROLL_LEFT) rfl).2.2.2.2.2.1⟩

theorem refreshStage_with_Position (c : Camera) (p : Vec3) (hn : c._needsUpdate = false) :
    refreshStage { c with Position := p } = { c with Position := p } :=
  refreshStage_clean hn

/-- C9. For every camera state (the private flag `_needsUpdate` being false, as it is
between calls) and every `deltaTime`, if `EnableRoll` is false or the intent contains
neither `ROLL_LEFT` nor `ROLL_RIGHT`, then `processMovement` leaves `Roll`, `Yaw`,
`Pitch`, `Front`, `Right` and `Up` unchanged: the result is the old state with at most
`Position` replaced, and the basis is not recomputed. -/
theorem processMovement_without_roll (c : Camera) (direction : Direction_Movement)
    (deltaTime : ℝ) (hn : c._needsUpdate = false)
    (h : c.EnableRoll = false ∨
      (HasFlag direction Direction_Movement.ROLL_LEFT = false ∧
        HasFlag direction Direction_Movement.ROLL_RIGHT = false)) :
    (c.processMovement direction deltaTime).Roll = c.Roll ∧
      (c.processMovement direction deltaTime).Yaw = c.Yaw ∧
      (c.processMovement direction deltaTime).Pitch = c.Pitch ∧
      (c.processMovement direction deltaTime).Front = c.Front ∧
      (c.processMovement direction deltaTime).Right = c.Right ∧
      (c.processMovement direction deltaTime).Up = c.Up ∧
      c.processMovement direction deltaTime
        = { c with Position := (c.processMovement direction deltaTime).Position } := by
  rw [processMovement_stages]
  by_cases hd : direction = Direction_Movement.NONE
  · rw [if_pos hd]
    exact ⟨rfl, rfl, rfl, rfl, rfl, rfl, rfl⟩
  · rw [if_neg hd, rollStage_eq, translateStage_eq]
    have hc : (c.EnableRoll && (HasFlag direction Direction_Movement.ROLL_LEFT
        || HasFlag direction Direction_Movement.ROLL_RIGHT)) = false := by
      rcases h with h | ⟨h1, h2⟩
      · rw [h]
        rfl
      · rw [h1, h2]
        simp
    simp only [hc, Bool.false_eq_true, if_false]
    rw [refreshStage_with_Position c _ hn]
    exact ⟨rfl, rfl, rfl, rfl, rfl, rfl, rfl⟩

/-- C9 (witness): roll disabled on the default camera, intent `{FORWARD, ROLL_LEFT}`. -/
theorem processMovement_without_roll_witness :
    ({ defaultCamera 0 with EnableRoll := false } : Camera)._needsUpdate = false ∧
      ({ defaultCamera 0 with EnableRoll := false } : Camera).EnableRoll = false ∧
      (Camera.processMovement { defaultCamera 0 with EnableRoll := false }
        (Direction_Movement.FORWARD ||| Direction_Movement.ROLL_LEFT) 1).Roll
          = ({ defaultCamera 0 with EnableRoll := false } : Camera).Roll :=
  ⟨rfl, rfl,
    (processMovement_without_roll { defaultCamera 0 with EnableRoll := false }
      (Direction_Movement.FORWARD ||| Direction_Movement.ROLL_LEFT) 1 rfl (Or.inl rfl)).1⟩

theorem refreshStage_Roll (c : Camera) : (refreshStage c).Roll = c.Roll := by
  unfold refreshStage
  split <;> rfl

/-- The roll angle after `processMovement`. -/
theorem processMovement_Roll_eq (c : Camera) (direction : Direction_Movement) (deltaTime : ℝ)
    (hd : direction ≠ Direction_Movement.NONE) (h : c.EnableRoll = true) :
    (c.processMovement direction deltaTime).Roll =
      c.Roll + 25 * (c.MovementSpeed * deltaTime)
        * (flagValue direction Direction_Movement.ROLL_RIGHT
          - flagValue direction Direction_Movement.ROLL_LEFT) := by
  rw [processMovement_stages, if_neg hd, refreshStage_Roll, rollStage_eq, translateStage_eq]
  simp only [h, Bool.true_and]
  split
  · rfl
  · rename_i hc
    simp only [Bool.or_eq_true, not_or, Bool.not_eq_true] at hc
    simp [flagValue, hc.1, hc.2]

/-- C10 (counterexample). On the default camera (`MovementSpeed = 10`, `EnableRoll`
true) `processMovement({ROLL_LEFT}, 0.1)` decreases `Roll` by 25 degrees, not by
`25 * 0.1 = 2.5` degrees. -/
theorem roll_left_default_not_two_and_a_half :
    (defaultCamera 0).EnableRoll = true ∧ (defaultCamera 0).MovementSpeed = 10 ∧
      ((defaultCamera 0).processMovement Direction_Movement.ROLL_LEFT (1 / 10)).Roll
        = (defaultCamera 0).Roll - 25 ∧
      ((defaultCamera 0).processMovement Direction_Movement.ROLL_LEFT (1 / 10)).Roll
        ≠ (defaultCamera 0).Roll - 25 * (1 / 10) := by
  have h1 : HasFlag Direction_Movement.ROLL_LEFT Direction_Movement.ROLL_LEFT = true := by
    decide
  have h2 : HasFlag Direction_Movement.ROLL_LEFT Direction_Movement.ROLL_RIGHT = false := by
    decide
  have e := processMovement_Roll_eq (defaultCamera 0) Direction_Movement.ROLL_LEFT (1 / 10)
    (by decide) rfl
  have hm : (defaultCamera 0).MovementSpeed = 10 := rfl
  have hr : (defaultCamera 0).Roll = 0 := rfl
  simp only [flagValue, h1, h2, hm, hr] at e
  refine ⟨rfl, rfl, ?_, ?_⟩
  · rw [e, hr]
    norm_num
  · rw [e, hr]
    norm_num

/-- C10 (amended). With `EnableRoll` true, `processMovement({ROLL_LEFT}, dt)` decreases
`Roll` by `25 * MovementSpeed * dt` degrees and `processMovement({ROLL_RIGHT}, dt)`
increases it by `25 * MovementSpeed * dt` degrees: the angular rate is `25 * MovementSpeed`
degrees per second, 250 for the default `MovementSpeed = 10`. -/
theorem processMovement_roll_rate (c : Camera) (deltaTime : ℝ) (h : c.EnableRoll = true) :
    (c.processMovement Direction_Movement.ROLL_LEFT deltaTime).Roll
        = c.Roll - 25 * (c.MovementSpeed * deltaTime) ∧
      (c.processMovement Direction_Movement.ROLL_RIGHT deltaTime).Roll
        = c.Roll + 25 * (c.MovementSpeed * deltaTime) ∧
      (c.MovementSpeed = 10 →
        (c.processMovement Direction_Movement.ROLL_LEFT (1 / 10)).Roll = c.Roll - 25) := by
  have h1 : HasFlag Direction_Movement.ROLL_LEFT Direction_Movement.ROLL_LEFT = true := by
    decide
  have h2 : HasFlag Direction_Movement.ROLL_LEFT Direction_Movement.ROLL_RIGHT = false := by
    decide
  have h3 : HasFlag Direction_Movement.ROLL_RIGHT Direction_Movement.ROLL_LEFT = false := by
    decide
  have h4 : HasFlag Direction_Movement.ROLL_RIGHT Direction_Movement.ROLL_RIGHT = true := by
    decide
  refine ⟨?_, ?_, ?_⟩
  · rw [processMovement_Roll_eq c _ _ (by decide) h]
    simp only [flagValue, h1, h2]
    norm_num
    ring
  · rw [processMovement_Roll_eq c _ _ (by decide) h]
    simp only [flagValue, h3, h4]
    norm_num
  · intro hm
    rw [processMovement_Roll_eq c _ _ (by decide) h, hm]
    simp only [flagValue, h1, h2]
    norm_num
    ring

/-- C10 (witness): the default camera rolls left by 25 degrees in a tenth of a second. -/
theorem processMovement_roll_rate_witness :
    (defaultCamera 0).EnableRoll = true ∧ (defaultCamera 0).MovementSpeed = 10 ∧
      ((defaultCamera 0).processMovement Direction_Movement.ROLL_LEFT (1 / 10)).Roll
        = (defaultCamera 0).Roll - 25 :=
  ⟨rfl, rfl, (processMovement_roll_rate (defaultCamera 0) (1 / 10) rfl).2.2 rfl⟩

/-! ## C12, C13, C14: mouse look and the pitch range -/

theorem clamp_mem (x lo hi : ℝ) (h : lo ≤ hi) : lo ≤ clamp x lo hi ∧ clamp x lo hi ≤ hi := by
  unfold clamp
  exact ⟨le_min (le_max_right _ _) h, min_le_right _ _⟩

theorem processMouseMovement_Yaw (c : Camera) (deltaX deltaY : ℝ) :
    (c.processMouseMovement deltaX deltaY).Yaw = c.Yaw + deltaX * c.MouseSensitivity := by
  unfold Camera.processMouseMovement
  cases c.InvertY <;> cases c.ConstrainPitch <;> rfl

/-- C12. For every camera state and every `(deltaX, deltaY)`, `processMouseMovement` sets
`Yaw` to `Yaw + deltaX * MouseSensitivity` (no wrap-around), takes as new pitch
`Pitch + deltaY * MouseSensitivity` (`InvertY` false) or `Pitch - deltaY * MouseSensitivity`
(`InvertY` true), clamped to `[-89, 89]` only when `ConstrainPitch` is set, leaves `Roll`,
`Position` and `Zoom` unchanged and stores the basis recomputed from the new angles; with
`MouseSensitivity = 0.1`, `deltaX = 100` and `deltaY = 0` the yaw grows by exactly 10. -/
theorem processMouseMovement_angles (c : Camera) (deltaX deltaY : ℝ) :
    (c.processMouseMovement deltaX deltaY).Yaw = c.Yaw + deltaX * c.MouseSensitivity ∧
      (c.processMouseMovement deltaX deltaY).Pitch =
        (if c.ConstrainPitch then
          clamp (if c.InvertY then c.Pitch - deltaY * c.MouseSensitivity
            else c.Pitch + deltaY * c.MouseSensitivity) (-89) 89
        else
          (if c.InvertY then c.Pitch - deltaY * c.MouseSensitivity
            else c.Pitch + deltaY * c.MouseSensitivity)) ∧
      (c.processMouseMovement deltaX deltaY).Roll = c.Roll ∧
      (c.processMouseMovement deltaX deltaY).Position = c.Position ∧
      (c.processMouseMovement deltaX deltaY).Zoom = c.Zoom ∧
      c.processMouseMovement deltaX deltaY =
        Camera.updateCameraVectors
          { c with Yaw := (c.processMouseMovement deltaX deltaY).Yaw,
                   Pitch := (c.processMouseMovement deltaX deltaY).Pitch } ∧
      (Camera.processMouseMovement { c with MouseSensitivity := 1 / 10 } 100 0).Yaw
        = c.Yaw + 10 := by
  refine ⟨processMouseMovement_Yaw c deltaX deltaY, ?_, ?_, ?_, ?_, ?_, ?_⟩
  · unfold Camera.processMouseMovement
    cases c.InvertY <;> cases c.ConstrainPitch <;> rfl
  · unfold Camera.processMouseMovement
    cases c.InvertY <;> cases c.ConstrainPitch <;> rfl
  · unfold Camera.processMouseMovement
    cases c.InvertY <;> cases c.ConstrainPitch <;> rfl
  · unfold Camera.processMouseMovement
    cases c.InvertY <;> cases c.ConstrainPitch <;> rfl
  · unfold Camera.processMouseMovement
    cases c.InvertY <;> cases c.ConstrainPitch <;> rfl
  · rw [processMouseMovement_Yaw]
    show c.Yaw + 100 * (1 / 10) = c.Yaw + 10
    norm_num

theorem processMouseMovement_ConstrainPitch (c : Camera) (deltaX deltaY : ℝ) :
    (c.processMouseMovement deltaX deltaY).ConstrainPitch = c.ConstrainPitch := by
  unfold Camera.processMouseMovement
  cases c.InvertY <;> cases c.ConstrainPitch <;> rfl

theorem processMouseMovement_Pitch_mem (c : Camera) (deltaX deltaY : ℝ)
    (h : c.ConstrainPitch = true) :
    -89 ≤ (c.processMouseMovement deltaX deltaY).Pitch ∧
      (c.processMouseMovement deltaX deltaY).Pitch ≤ 89 := by
  have e : (c.processMouseMovement deltaX deltaY).Pitch =
      clamp (if c.InvertY then c.Pitch - deltaY * c.MouseSensitivity
        else c.Pitch + deltaY * c.MouseSensitivity) (-89) 89 := by
    unfold Camera.processMouseMovement
    rw [h]
    cases c.InvertY <;> rfl
  rw [e]
  exact clamp_mem _ _ _ (by norm_num)

theorem afterMouseMoves_Pitch_mem (moves : List (ℝ × ℝ)) :
    ∀ c : Camera, c.ConstrainPitch = true → -89 ≤ c.Pitch ∧ c.Pitch ≤ 89 →
      -89 ≤ (afterMouseMoves c moves).Pitch ∧ (afterMouseMoves c moves).Pitch ≤ 89 := by
  induction moves with
  | nil =>
    intro c _ h
    exact h
  | cons m ms ih =>
    intro c hc _
    exact ih (c.processMouseMovement m.1 m.2)
      ((processMouseMovement_ConstrainPitch c m.1 m.2).trans hc)
      (processMouseMovement_Pitch_mem c m.1 m.2 hc)

/-- C13. With `ConstrainPitch` true, after a `processMouseMovement` call, whatever the
starting `Pitch` and `(deltaX, deltaY)`, and after any non-empty sequence of such calls,
`Pitch` lies in `[-89, 89]`. -/
theorem processMouseMovement_pitch_clamped (c : Camera) (h : c.ConstrainPitch = true) :
    (∀ deltaX deltaY : ℝ, -89 ≤ (c.processMouseMovement deltaX deltaY).Pitch ∧
        (c.processMouseMovement deltaX deltaY).Pitch ≤ 89) ∧
      (∀ moves : List (ℝ × ℝ), moves ≠ [] →
        -89 ≤ (afterMouseMoves c moves).Pitch ∧ (afterMouseMoves c moves).Pitch ≤ 89) := by
  refine ⟨fun deltaX deltaY => processMouseMovement_Pitch_mem c deltaX deltaY h, ?_⟩
  intro moves hne
  cases moves with
  | nil => exact absurd rfl hne
  | cons m ms =>
    exact afterMouseMoves_Pitch_mem ms (c.processMouseMovement m.1 m.2)
      ((processMouseMovement_ConstrainPitch c m.1 m.2).trans h)
      (processMouseMovement_Pitch_mem c m.1 m.2 h)

/-- C13 (witness): a camera constructed with pitch 120, then moved by the mouse. -/
theorem processMouseMovement_pitch_clamped_witness :
    (Camera.construct 0 ⟨0, 0, 3⟩ ⟨0, 1, 0⟩ 120 (-90)).ConstrainPitch = true ∧
      -89 ≤ ((Camera.construct 0 ⟨0, 0, 3⟩ ⟨0, 1, 0⟩ 120 (-90)).processMouseMovement
        5 1000).Pitch ∧
      ((Camera.construct 0 ⟨0, 0, 3⟩ ⟨0, 1, 0⟩ 120 (-90)).processMouseMovement
        5 1000).Pitch ≤ 89 :=
  ⟨rfl, (processMouseMovement_pitch_clamped
    (Camera.construct 0 ⟨0, 0, 3⟩ ⟨0, 1, 0⟩ 120 (-90)) rfl).1 5 1000⟩

theorem processMovement_Pitch (c : Camera) (direction : Direction_Movement) (deltaTime : ℝ) :
    (c.processMovement direction deltaTime).Pitch = c.Pitch := by
  rw [processMovement_stages]
  split
  · rfl
  · have h1 : ∀ x : Camera, (refreshStage x).Pitch = x.Pitch := by
      intro x
      unfold refreshStage
      split <;> rfl
    have h2 : ∀ (x : Camera) (v : ℝ), (rollStage x direction v).Pitch = x.Pitch := by
      intro x v
      rw [rollStage_eq]
      split <;> rfl
    rw [h1, h2, translateStage_eq]

theorem processMouseScroll_Pitch (c : Camera) (deltaScroll : ℝ) :
    (c.processMouseScroll deltaScroll).Pitch = c.Pitch := by
  unfold Camera.processMouseScroll
  split <;> rfl

/-- C14 (the code at the failing input). The constructor stores its `pitch` argument
unclamped although `ConstrainPitch` is initialised to true: a camera constructed with
`pitch = 120` has `ConstrainPitch = true` and `Pitch = 120`, outside `[-89, 89]`, and
`processMovement` and `processMouseScroll` calls leave it there. -/
theorem construct_pitch_not_clamped :
    (∀ (rollStorage : ℝ) (position worldUp : Vec3) (pitch yaw : ℝ),
        (Camera.construct rollStorage position worldUp pitch yaw).ConstrainPitch = true ∧
        (Camera.construct rollStorage position worldUp pitch yaw).Pitch = pitch) ∧
      (Camera.construct 0 ⟨0, 0, 3⟩ ⟨0, 1, 0⟩ 120 (-90)).ConstrainPitch = true ∧
      (Camera.construct 0 ⟨0, 0, 3⟩ ⟨0, 1, 0⟩ 120 (-90)).Pitch = 120 ∧
      ¬ (Camera.construct 0 ⟨0, 0, 3⟩ ⟨0, 1, 0⟩ 120 (-90)).Pitch ≤ 89 ∧
      (((Camera.construct 0 ⟨0, 0, 3⟩ ⟨0, 1, 0⟩ 120 (-90)).processMovement
        Direction_Movement.FORWARD 1).processMouseScroll 1).Pitch = 120 := by
  refine ⟨fun _ _ _ _ _ => ⟨rfl, rfl⟩, rfl, rfl, ?_, ?_⟩
  · show ¬ (120 : ℝ) ≤ 89
    norm_num
  · rw [processMouseScroll_Pitch, processMovement_Pitch]
    rfl

/-! ## C15: zoom -/

theorem processMouseScroll_Zoom_mem (c : Camera) (deltaScroll : ℝ)
    (h : 1 ≤ c.Zoom ∧ c.Zoom ≤ 90) :
    1 ≤ (c.processMouseScroll deltaScroll).Zoom ∧ (c.processMouseScroll deltaScroll).Zoom ≤ 90 := by
  unfold Camera.processMouseScroll
  split
  · exact h
  · exact clamp_mem _ _ _ (by norm_num)

theorem afterScrolls_Zoom_mem (scrolls : List ℝ) :
    ∀ c : Camera, 1 ≤ c.Zoom ∧ c.Zoom ≤ 90 →
      1 ≤ (afterScrolls c scrolls).Zoom ∧ (afterScrolls c scrolls).Zoom ≤ 90 := by
  induction scrolls with
  | nil =>
    intro c h
    exact h
  | cons d ds ih =>
    intro c h
    exact ih (c.processMouseScroll d) (processMouseScroll_Zoom_mem c d h)

theorem processMouseScroll_eq (c : Camera) (deltaScroll : ℝ) :
    c.processMouseScroll deltaScroll
      = { c with Zoom := (c.processMouseScroll deltaScroll).Zoom } := by
  unfold Camera.processMouseScroll
  split <;> rfl

theorem afterScrolls_exists (scrolls : List ℝ) :
    ∀ c : Camera, ∃ z : ℝ, afterScrolls c scrolls = { c with Zoom := z } := by
  induction scrolls with
  | nil =>
    intro c
    exact ⟨c.Zoom, rfl⟩
  | cons d ds ih =>
    intro c
    obtain ⟨z, hz⟩ := ih (c.processMouseScroll d)
    obtain ⟨w, hw⟩ : ∃ w : ℝ, c.processMouseScroll d = { c with Zoom := w } :=
      ⟨_, processMouseScroll_eq c d⟩
    rw [hw] at hz
    refine ⟨z, ?_⟩
    show afterScrolls (c.processMouseScroll d) ds = _
    rw [hw]
    exact hz

theorem afterScrolls_eq (scrolls : List ℝ) (c : Camera) :
    afterScrolls c scrolls = { c with Zoom := (afterScrolls c scrolls).Zoom } := by
  obtain ⟨z, hz⟩ := afterScrolls_exists scrolls c
  rw [hz]

/-- C15. For every camera state and every `deltaScroll`, `processMouseScroll` returns the
same state with only `Zoom` replaced: `Zoom` is unchanged when `EnableZoom` is false and
becomes `clamp(Zoom - ScrollSensitivity * deltaScroll, 1, 90)` when it is true.  After any
sequence of scroll calls on a constructed camera `Zoom` lies in `[1, 90]`, and the state
differs from the constructed one in `Zoom` only. -/
theorem processMouseScroll_zoom :
    (∀ (c : Camera) (deltaScroll : ℝ),
        c.processMouseScroll deltaScroll
          = { c with Zoom := (c.processMouseScroll deltaScroll).Zoom } ∧
        (c.processMouseScroll deltaScroll).Zoom =
          (if c.EnableZoom then clamp (c.Zoom - c.ScrollSensitivity * deltaScroll) 1 90
            else c.Zoom)) ∧
      (∀ (rollStorage : ℝ) (position worldUp : Vec3) (pitch yaw : ℝ) (scrolls : List ℝ),
        1 ≤ (afterScrolls (Camera.construct rollStorage position worldUp pitch yaw)
          scrolls).Zoom ∧
        (afterScrolls (Camera.construct rollStorage position worldUp pitch yaw)
          scrolls).Zoom ≤ 90 ∧
        afterScrolls (Camera.construct rollStorage position worldUp pitch yaw) scrolls =
          { Camera.construct rollStorage position worldUp pitch yaw with
            Zoom := (afterScrolls (Camera.construct rollStorage position worldUp pitch yaw)
              scrolls).Zoom }) := by
  constructor
  · intro c deltaScroll
    refine ⟨processMouseScroll_eq c deltaScroll, ?_⟩
    unfold Camera.processMouseScroll
    cases c.EnableZoom <;> rfl
  · intro rollStorage position worldUp pitch yaw scrolls
    have h : 1 ≤ (Camera.construct rollStorage position worldUp pitch yaw).Zoom ∧
        (Camera.construct rollStorage position worldUp pitch yaw).Zoom ≤ 90 := by
      constructor
      · show (1 : ℝ) ≤ 45
        norm_num
      · show (45 : ℝ) ≤ 90
        norm_num
    have hz := afterScrolls_Zoom_mem scrolls _ h
    exact ⟨hz.1, hz.2, afterScrolls_eq scrolls _⟩

/-! ## C11: rolling tilts the horizon only -/

theorem hasFlag_NONE (flag : Direction_Movement) :
    HasFlag Direction_Movement.NONE flag = false := by
  have h := flagValue_NONE flag
  unfold flagValue at h
  cases hb : HasFlag Direction_Movement.NONE flag
  · rfl
  · rw [hb] at h
    norm_num at h

theorem translateStage_of_no_translation (c : Camera) (direction : Direction_Movement)
    (velocity : ℝ)
    (h : HasFlag direction Direction_Movement.FORWARD = false ∧
      HasFlag direction Direction_Movement.BACKWARD = false ∧
      HasFlag direction Direction_Movement.LEFT = false ∧
      HasFlag direction Direction_Movement.RIGHT = false ∧
      HasFlag direction Direction_Movement.UP = false ∧
      HasFlag direction Direction_Movement.DOWN = false) :
    translateStage c direction velocity = c := by
  obtain ⟨h1, h2, h3, h4, h5, h6⟩ := h
  rw [translateStage_eq]
  simp only [flagValue, h1, h2, h3, h4, h5, h6]
  ext <;> simp

/-- Two combinations of an orthonormal pair with the same value have the same
coefficients. -/
theorem orthonormal_pair_inj (a b : Vec3) (c₁ s₁ c₂ s₂ : ℝ) (ha : dot a a = 1)
    (hb : dot b b = 1) (hab : dot a b = 0) (h : a * c₁ + b * s₁ = a * c₂ + b * s₂) :
    c₁ = c₂ ∧ s₁ = s₂ := by
  have ex := congrArg Vec3.x h
  have ey := congrArg Vec3.y h
  have ez := congrArg Vec3.z h
  simp only [Vec3.add_x, Vec3.add_y, Vec3.add_z, Vec3.scale_x, Vec3.scale_y, Vec3.scale_z]
    at ex ey ez
  simp only [dot] at ha hb hab
  constructor
  · linear_combination a.x * ex + a.y * ey + a.z * ez - (c₁ - c₂) * ha - (s₁ - s₂) * hab
  · linear_combination b.x * ex + b.y * ey + b.z * ez - (s₁ - s₂) * hb - (c₁ - c₂) * hab

theorem cos_sin_eq_imp (a b : ℝ) (hc : Real.cos a = Real.cos b) (hs : Real.sin a = Real.sin b) :
    ∃ k : ℤ, a - b = 2 * Real.pi * k := by
  have h : (a : Real.Angle) = b := Real.Angle.cos_sin_inj hc hs
  exact Real.Angle.angle_eq_iff_two_pi_dvd_sub.mp h

theorem radians_sub_eq (x y : ℝ) (k : ℤ) (h : radians x - radians y = 2 * Real.pi * k) :
    x - y = 360 * k := by
  unfold radians at h
  have hpi := Real.pi_pos.ne'
  field_simp at h
  have h2 : Real.pi * (x - y) = Real.pi * (360 * k) := by linarith
  exact mul_left_cancel₀ hpi h2

theorem rolledRight_inj {f w : Vec3} (hf : dot f f = 1) (h : cross f w ≠ Vec3.zero) (a b : ℝ)
    (e : rolledRight f w a = rolledRight f w b) : ∃ k : ℤ, a - b = 2 * Real.pi * k := by
  have hr := dot_rightDir_self h
  have hrf := dot_rightDir_front f w
  have hn : dot (cross f (rightDir f w)) (cross f (rightDir f w)) = 1 := by
    rw [dot_cross_cross, hf, hr, dot_comm, hrf]
    norm_num
  have hrn : dot (rightDir f w) (cross f (rightDir f w)) = 0 := by
    rw [dot_comm, dot_cross_right]
  obtain ⟨hc, hs⟩ := orthonormal_pair_inj _ _ _ _ _ _ hr hn hrn e
  exact cos_sin_eq_imp a b hc hs

theorem rolledUp_inj {f w : Vec3} (hf : dot f f = 1) (h : cross f w ≠ Vec3.zero) (a b : ℝ)
    (e : rolledUp f w a = rolledUp f w b) : ∃ k : ℤ, a - b = 2 * Real.pi * k := by
  have hr := dot_rightDir_self h
  have hrf := dot_rightDir_front f w
  rw [rolledUp_eq hf h, rolledUp_eq hf h] at e
  have hn : dot (cross (rightDir f w) f) (cross (rightDir f w) f) = 1 := by
    rw [dot_cross_cross, hf, hr, hrf]
    norm_num
  have hrn : dot (cross (rightDir f w) f) (rightDir f w) = 0 := dot_cross_left _ _
  obtain ⟨hc, hs⟩ := orthonormal_pair_inj _ _ _ _ _ _ hn hr hrn e
  exact cos_sin_eq_imp a b hc hs

/-- The roll-free `right` and `up`, turned by the matrix `glm::rotate(mat4(1), angle, front)`,
are `rolledRight` and `rolledUp`. -/
theorem rotate_roll_free {f w : Vec3} (hf : dot f f = 1) (h : cross f w ≠ Vec3.zero)
    (angle : ℝ) :
    vec3 ((rotate mat4One angle f).mulVec (vec4 (rightDir f w) 0)) = rolledRight f w angle ∧
      vec3 ((rotate mat4One angle f).mulVec (vec4 (upDir f w) 0)) = rolledUp f w angle := by
  have hnf := normalize_of_dot_self_eq_one hf
  have hfr : dot f (rightDir f w) = 0 := by rw [dot_comm, dot_rightDir_front]
  have hfu : dot f (upDir f w) = 0 := by rw [upDir_eq hf h, dot_comm, dot_cross_right]
  constructor
  · rw [rotate_mulVec, hnf, hfr]
    unfold rolledRight
    ext <;> simp
  · rw [rotate_mulVec, hnf, hfu]
    unfold rolledUp
    ext <;> simp

/-- The state after a `processMovement` call whose intent has a roll flag and no
translation flag, on a camera with roll enabled. -/
theorem processMovement_roll_only_eq (c : Camera) (direction : Direction_Movement)
    (deltaTime : ℝ) (hroll : c.EnableRoll = true)
    (hT : HasFlag direction Direction_Movement.FORWARD = false ∧
      HasFlag direction Direction_Movement.BACKWARD = false ∧
      HasFlag direction Direction_Movement.LEFT = false ∧
      HasFlag direction Direction_Movement.RIGHT = false ∧
      HasFlag direction Direction_Movement.UP = false ∧
      HasFlag direction Direction_Movement.DOWN = false)
    (hR : HasFlag direction Direction_Movement.ROLL_LEFT = true ∨
      HasFlag direction Direction_Movement.ROLL_RIGHT = true) :
    c.processMovement direction deltaTime =
      { Camera.updateCameraVectors
          { c with
            Roll := c.Roll + 25 * (c.MovementSpeed * deltaTime)
              * (flagValue direction Direction_Movement.ROLL_RIGHT
                - flagValue direction Direction_Movement.ROLL_LEFT)
            _needsUpdate := true } with
        _needsUpdate := false } := by
  have hd : direction ≠ Direction_Movement.NONE := by
    intro e
    rw [e, hasFlag_NONE, hasFlag_NONE] at hR
    rcases hR with h | h <;> cases h
  have hc : (c.EnableRoll && (HasFlag direction Direction_Movement.ROLL_LEFT
      || HasFlag direction Direction_Movement.ROLL_RIGHT)) = true := by
    rw [hroll]
    rcases hR with h | h <;> simp [h]
  rw [processMovement_stages, if_neg hd, translateStage_of_no_translation c direction _ hT,
    rollStage_eq, if_pos hc, refreshStage_dirty rfl]

/-- C11. For every camera with `EnableRoll` true whose basis is consistent with its
angles and non-degenerate, a `processMovement` call whose intent holds a roll flag and no
translation flag leaves `Front`, `Yaw`, `Pitch` and `Position` unchanged, while `Right`
and `Up` become the roll-free right and up turned about `Front` by the new `Roll`; they
differ from their old values whenever the change in `Roll` is not a multiple of 360
degrees. -/
theorem processMovement_roll_only (c : Camera) (direction : Direction_Movement)
    (deltaTime : ℝ) (hroll : c.EnableRoll = true) (hcons : Consistent c)
    (hnd : cross (frontDir c.Yaw c.Pitch) c.WorldUp ≠ Vec3.zero)
    (hT : HasFlag direction Direction_Movement.FORWARD = false ∧
      HasFlag direction Direction_Movement.BACKWARD = false ∧
      HasFlag direction Direction_Movement.LEFT = false ∧
      HasFlag direction Direction_Movement.RIGHT = false ∧
      HasFlag direction Direction_Movement.UP = false ∧
      HasFlag direction Direction_Movement.DOWN = false)
    (hR : HasFlag direction Direction_Movement.ROLL_LEFT = true ∨
      HasFlag direction Direction_Movement.ROLL_RIGHT = true) :
    (c.processMovement direction deltaTime).Front = c.Front ∧
      (c.processMovement direction deltaTime).Yaw = c.Yaw ∧
      (c.processMovement direction deltaTime).Pitch = c.Pitch ∧
      (c.processMovement direction deltaTime).Position = c.Position ∧
      (c.processMovement direction deltaTime).Right =
        vec3 ((rotate mat4One (radians (c.processMovement direction deltaTime).Roll)
          c.Front).mulVec (vec4 (rightDir c.Front c.WorldUp) 0)) ∧
      (c.processMovement direction deltaTime).Up =
        vec3 ((rotate mat4One (radians (c.processMovement direction deltaTime).Roll)
          c.Front).mulVec (vec4 (upDir c.Front c.WorldUp) 0)) ∧
      ((¬ ∃ k : ℤ, (c.processMovement direction deltaTime).Roll - c.Roll = 360 * k) →
        (c.processMovement direction deltaTime).Right ≠ c.Right ∧
        (c.processMovement direction deltaTime).Up ≠ c.Up) := by
  have hp := processMovement_roll_only_eq c direction deltaTime hroll hT hR
  have hf := dot_frontDir c.Yaw c.Pitch
  obtain ⟨eF0, eR0, eU0⟩ := updateCameraVectors_eq c hnd
  unfold Consistent at hcons
  rw [hcons] at eF0 eR0 eU0
  obtain ⟨eF, eR, eU⟩ := updateCameraVectors_eq
    { c with
      Roll := c.Roll + 25 * (c.MovementSpeed * deltaTime)
        * (flagValue direction Direction_Movement.ROLL_RIGHT
          - flagValue direction Direction_Movement.ROLL_LEFT)
      _needsUpdate := true } hnd
  have pF : (c.processMovement direction deltaTime).Front = frontDir c.Yaw c.Pitch := by
    rw [hp]
    exact eF
  have pR : (c.processMovement direction deltaTime).Right =
      rolledRight (frontDir c.Yaw c.Pitch) c.WorldUp
        (radians (c.processMovement direction deltaTime).Roll) := by
    rw [hp]
    exact eR
  have pU : (c.processMovement direction deltaTime).Up =
      rolledUp (frontDir c.Yaw c.Pitch) c.WorldUp
        (radians (c.processMovement direction deltaTime).Roll) := by
    rw [hp]
    exact eU
  have hrot := rotate_roll_free hf hnd (radians (c.processMovement direction deltaTime).Roll)
  refine ⟨pF.trans eF0.symm, ?_, ?_, ?_, ?_, ?_, ?_⟩
  · rw [hp]
    rfl
  · rw [hp]
    rfl
  · rw [hp]
    rfl
  · rw [pR, eF0, hrot.1]
  · rw [pU, eF0, hrot.2]
  · intro hk
    constructor
    · intro e
      rw [pR, eR0] at e
      obtain ⟨k, hk2⟩ := rolledRight_inj hf hnd _ _ e
      exact hk ⟨k, radians_sub_eq _ _ k hk2⟩
    · intro e
      rw [pU, eU0] at e
      obtain ⟨k, hk2⟩ := rolledUp_inj hf hnd _ _ e
      exact hk ⟨k, radians_sub_eq _ _ k hk2⟩

theorem defaultCamera_roll_left_tenth :
    ((defaultCamera 0).processMovement Direction_Movement.ROLL_LEFT (1 / 10)).Roll
      - (defaultCamera 0).Roll = -25 := by
  have h1 : HasFlag Direction_Movement.ROLL_LEFT Direction_Movement.ROLL_LEFT = true := by
    decide
  have h2 : HasFlag Direction_Movement.ROLL_LEFT Direction_Movement.ROLL_RIGHT = false := by
    decide
  have e := processMovement_Roll_eq (defaultCamera 0) Direction_Movement.ROLL_LEFT (1 / 10)
    (by decide) rfl
  have hm : (defaultCamera 0).MovementSpeed = 10 := rfl
  have hr : (defaultCamera 0).Roll = 0 := rfl
  simp only [flagValue, h1, h2, hm, hr] at e
  rw [e, hr]
  norm_num

theorem defaultCamera_roll_left_not_full_turn :
    ¬ ∃ k : ℤ, ((defaultCamera 0).processMovement Direction_Movement.ROLL_LEFT (1 / 10)).Roll
      - (defaultCamera 0).Roll = 360 * k := by
  rw [defaultCamera_roll_left_tenth]
  rintro ⟨k, hk⟩
  have h : (360 * k : ℤ) = -25 := by exact_mod_cast hk.symm
  omega

/-- C11 (witness): the default camera rolled left for a tenth of a second. -/
theorem processMovement_roll_only_witness :
    (defaultCamera 0).EnableRoll = true ∧ Consistent (defaultCamera 0) ∧
      ((defaultCamera 0).processMovement Direction_Movement.ROLL_LEFT (1 / 10)).Front
        = (defaultCamera 0).Front ∧
      ((defaultCamera 0).processMovement Direction_Movement.ROLL_LEFT (1 / 10)).Right
        ≠ (defaultCamera 0).Right :=
  ⟨rfl, rfl,
    (processMovement_roll_only (defaultCamera 0) Direction_Movement.ROLL_LEFT (1 / 10) rfl rfl
      defaultCamera_nondegenerate
      ⟨by decide, by decide, by decide, by decide, by decide, by decide⟩
      (Or.inl (by decide))).1,
    ((processMovement_roll_only (defaultCamera 0) Direction_Movement.ROLL_LEFT (1 / 10) rfl rfl
      defaultCamera_nondegenerate
      ⟨by decide, by decide, by decide, by decide, by decide, by decide⟩
      (Or.inl (by decide))).2.2.2.2.2.2 defaultCamera_roll_left_not_full_turn).1⟩

/-! ## C16, C17: view and projection matrices -/

/-- The view matrix of a camera whose basis is the frame computed by
`updateCameraVectors`: its rows are `Right`, `Up` and `-Front`. -/
theorem getViewMatrix_eq (c : Camera) (hcons : Consistent c)
    (hnd : cross (frontDir c.Yaw c.Pitch) c.WorldUp ≠ Vec3.zero) :
    c.getViewMatrix =
      ⟨⟨c.Right.x, c.Up.x, -c.Front.x, 0⟩,
       ⟨c.Right.y, c.Up.y, -c.Front.y, 0⟩,
       ⟨c.Right.z, c.Up.z, -c.Front.z, 0⟩,
       ⟨-dot c.Right c.Position, -dot c.Up c.Position, dot c.Front c.Position, 1⟩⟩ := by
  obtain ⟨ho, _, h2, h3⟩ := updateCameraVectors_frame c hnd
  unfold Consistent at hcons
  rw [hcons] at ho h2 h3
  have hF : normalize c.Front = c.Front :=
    normalize_of_dot_self_eq_one ((length_eq_one_iff _).mp ho.1)
  have hR : normalize c.Right = c.Right :=
    normalize_of_dot_self_eq_one ((length_eq_one_iff _).mp ho.2.1)
  have hsub : c.Position + c.Front - c.Position = c.Front := by
    ext <;> simp
  unfold Camera.getViewMatrix lookAt
  simp only [hsub, hF, h3, hR, h2]

/-- C16. For every camera whose `Front`, `Right`, `Up` are the orthonormal frame produced
by `updateCameraVectors`, `getViewMatrix()` maps the world point `Position` to the
eye-space origin and the world directions `Right`, `Up` and `Front` to `(1, 0, 0)`,
`(0, 1, 0)` and `(0, 0, -1)`; its value is the same for any camera with the same
`Position`, `Front` and `Up`. -/
theorem getViewMatrix_frame (c : Camera) (hcons : Consistent c)
    (hnd : cross (frontDir c.Yaw c.Pitch) c.WorldUp ≠ Vec3.zero) :
    c.getViewMatrix.mulVec (vec4 c.Position 1) = ⟨0, 0, 0, 1⟩ ∧
      c.getViewMatrix.mulVec (vec4 c.Right 0) = ⟨1, 0, 0, 0⟩ ∧
      c.getViewMatrix.mulVec (vec4 c.Up 0) = ⟨0, 1, 0, 0⟩ ∧
      c.getViewMatrix.mulVec (vec4 c.Front 0) = ⟨0, 0, -1, 0⟩ ∧
      (∀ c' : Camera, c'.Position = c.Position → c'.Front = c.Front → c'.Up = c.Up →
        c'.getViewMatrix = c.getViewMatrix) := by
  have hV := getViewMatrix_eq c hcons hnd
  obtain ⟨ho, _, _, _⟩ := updateCameraVectors_frame c hnd
  unfold Consistent at hcons
  rw [hcons] at ho
  obtain ⟨hF, hR, hU, hFR, hFU, hRU⟩ := ho
  rw [length_eq_one_iff] at hF hR hU
  simp only [dot] at hF hR hU hFR hFU hRU
  refine ⟨?_, ?_, ?_, ?_, ?_⟩
  · rw [hV]
    ext <;>
    · simp only [Mat4.mulVec, vec4, dot, Vec4.v4_add_x, Vec4.v4_add_y, Vec4.v4_add_z,
        Vec4.v4_add_w, Vec4.v4_scale_x, Vec4.v4_scale_y, Vec4.v4_scale_z, Vec4.v4_scale_w]
      linarith
  · rw [hV]
    ext <;>
    · simp only [Mat4.mulVec, vec4, dot, Vec4.v4_add_x, Vec4.v4_add_y, Vec4.v4_add_z,
        Vec4.v4_add_w, Vec4.v4_scale_x, Vec4.v4_scale_y, Vec4.v4_scale_z, Vec4.v4_scale_w]
      linarith
  · rw [hV]
    ext <;>
    · simp only [Mat4.mulVec, vec4, dot, Vec4.v4_add_x, Vec4.v4_add_y, Vec4.v4_add_z,
        Vec4.v4_add_w, Vec4.v4_scale_x, Vec4.v4_scale_y, Vec4.v4_scale_z, Vec4.v4_scale_w]
      linarith
  · rw [hV]
    ext <;>
    · simp only [Mat4.mulVec, vec4, dot, Vec4.v4_add_x, Vec4.v4_add_y, Vec4.v4_add_z,
        Vec4.v4_add_w, Vec4.v4_scale_x, Vec4.v4_scale_y, Vec4.v4_scale_z, Vec4.v4_scale_w]
      linarith
  · intro c' hP hFr hUp
    unfold Camera.getViewMatrix
    rw [hP, hFr, hUp]

/-- C16 (witness): the camera of the default constructor. -/
theorem getViewMatrix_frame_witness :
    Consistent (defaultCamera 0) ∧
      (defaultCamera 0).getViewMatrix.mulVec (vec4 (defaultCamera 0).Position 1)
        = ⟨0, 0, 0, 1⟩ ∧
      (defaultCamera 0).getViewMatrix.mulVec (vec4 (defaultCamera 0).Front 0)
        = ⟨0, 0, -1, 0⟩ :=
  ⟨rfl, (getViewMatrix_frame (defaultCamera 0) rfl defaultCamera_nondegenerate).1,
    (getViewMatrix_frame (defaultCamera 0) rfl defaultCamera_nondegenerate).2.2.2.1⟩

/-- C17. `getProjectionMatrix(aspectRatio)` is the perspective projection of GLM with
vertical field of view `Zoom` degrees, the given aspect ratio, near plane `0.1` and far
plane `1000`; two cameras with equal `Zoom` return the same matrix for the same
`aspectRatio`, whatever their `NearPlane`, `RenderDistance` and other fields are. -/
theorem getProjectionMatrix_fixed_planes :
    (∀ (c : Camera) (aspectRatio : ℝ),
        c.getProjectionMatrix aspectRatio
          = perspective (radians c.Zoom) aspectRatio (1 / 10) 1000 ∧
        c.getProjectionMatrix aspectRatio =
          ⟨⟨1 / (aspectRatio * Real.tan (radians c.Zoom / 2)), 0, 0, 0⟩,
           ⟨0, 1 / Real.tan (radians c.Zoom / 2), 0, 0⟩,
           ⟨0, 0, -(1000 + 1 / 10) / (1000 - 1 / 10), -1⟩,
           ⟨0, 0, -(2 * 1000 * (1 / 10)) / (1000 - 1 / 10), 0⟩⟩) ∧
      (∀ (c₁ c₂ : Camera) (aspectRatio : ℝ), c₁.Zoom = c₂.Zoom →
        c₁.getProjectionMatrix aspectRatio = c₂.getProjectionMatrix aspectRatio) := by
  refine ⟨fun c aspectRatio => ⟨rfl, rfl⟩, ?_⟩
  intro c₁ c₂ aspectRatio h
  unfold Camera.getProjectionMatrix
  rw [h]

/-- C17 (witness): changing `NearPlane` and `RenderDistance` of the default camera does
not change its projection matrix. -/
theorem getProjectionMatrix_fixed_planes_witness :
    ({ defaultCamera 0 with NearPlane := 5, RenderDistance := 50 } : Camera).Zoom
        = (defaultCamera 0).Zoom ∧
      ({ defaultCamera 0 with NearPlane := 5, RenderDistance := 50 } : Camera).NearPlane
        ≠ (defaultCamera 0).NearPlane ∧
      Camera.getProjectionMatrix { defaultCamera 0 with NearPlane := 5, RenderDistance := 50 }
        (16 / 9) = (defaultCamera 0).getProjectionMatrix (16 / 9) :=
  ⟨rfl, by show (5 : ℝ) ≠ 1 / 10; norm_num,
    getProjectionMatrix_fixed_planes.2 _ _ _ rfl⟩

/-! ## Bits of the movement flags -/

/-- Two integers with the same bits are equal. -/
theorem int_testBit_ext {a b : ℤ} (h : ∀ k, Int.testBit a k = Int.testBit b k) : a = b := by
  have key : ∀ m n : ℕ, ¬ (∀ k, Nat.testBit m k = !Nat.testBit n k) := by
    intro m n hk
    have h1 : Nat.testBit m (m + n) = false :=
      Nat.testBit_lt_two_pow (lt_of_lt_of_le (Nat.lt_two_pow m)
        (Nat.pow_le_pow_right (by norm_num) (by omega)))
    have h2 : Nat.testBit n (m + n) = false :=
      Nat.testBit_lt_two_pow (lt_of_lt_of_le (Nat.lt_two_pow n)
        (Nat.pow_le_pow_right (by norm_num) (by omega)))
    have := hk (m + n)
    rw [h1, h2] at this
    cases this
  cases a with
  | ofNat m =>
    cases b with
    | ofNat n => exact congrArg Int.ofNat (Nat.eq_of_testBit_eq h)
    | negSucc n => exact absurd h (key m n)
  | negSucc m =>
    cases b with
    | ofNat n => exact absurd (fun k => (h k).symm) (key n m)
    | negSucc n =>
      have : m = n := Nat.eq_of_testBit_eq (fun k => by
        have := h k
        simp only [Int.testBit] at this
        cases hm : Nat.testBit m k <;> cases hn : Nat.testBit n k <;> simp_all)
      rw [this]

theorem int_testBit_two_pow (a k : ℕ) : Int.testBit ((2 ^ a : ℕ) : ℤ) k = decide (a = k) := by
  show Nat.testBit (2 ^ a) k = _
  exact Nat.testBit_two_pow

theorem int_testBit_zero (k : ℕ) : Int.testBit 0 k = false := by
  show Nat.testBit 0 k = _
  exact Nat.zero_testBit k

theorem int_ne_zero_iff_testBit (a : ℤ) : a ≠ 0 ↔ ∃ k, Int.testBit a k = true := by
  constructor
  · intro h
    by_contra hk
    apply h
    apply int_testBit_ext
    intro k
    rw [int_testBit_zero]
    cases hb : Int.testBit a k
    · rfl
    · exact absurd ⟨k, hb⟩ hk
  · rintro ⟨k, hk⟩ rfl
    rw [int_testBit_zero] at hk
    cases hk

/-- The flag with bit `a` is present in `i` exactly when bit `a` of `i` is set. -/
theorem hasFlag_two_pow (i : Direction_Movement) (a : ℕ) :
    HasFlag i ⟨((2 ^ a : ℕ) : ℤ)⟩ = Int.testBit i.val a := by
  have h : (i &&& (⟨((2 ^ a : ℕ) : ℤ)⟩ : Direction_Movement)) ≠ Direction_Movement.NONE ↔
      Int.testBit i.val a = true := by
    have e : (i &&& (⟨((2 ^ a : ℕ) : ℤ)⟩ : Direction_Movement))
        = ⟨Int.land i.val ((2 ^ a : ℕ) : ℤ)⟩ := rfl
    rw [e]
    have e2 : (⟨Int.land i.val ((2 ^ a : ℕ) : ℤ)⟩ : Direction_Movement)
        ≠ Direction_Movement.NONE ↔ Int.land i.val ((2 ^ a : ℕ) : ℤ) ≠ 0 := by
      constructor
      · intro h1 h2
        exact h1 (congrArg Direction_Movement.mk h2)
      · intro h1 h2
        exact h1 (congrArg Direction_Movement.val h2)
    rw [e2, int_ne_zero_iff_testBit]
    constructor
    · rintro ⟨k, hk⟩
      rw [Int.testBit_land, int_testBit_two_pow] at hk
      simp only [Bool.and_eq_true, decide_eq_true_eq] at hk
      rw [hk.2]
      exact hk.1
    · intro hk
      refine ⟨a, ?_⟩
      rw [Int.testBit_land, int_testBit_two_pow, hk]
      simp
  unfold HasFlag
  cases hb : Int.testBit i.val a
  · rw [hb] at h
    exact decide_eq_false (fun hne => Bool.false_ne_true (h.mp hne))
  · rw [hb] at h
    exact decide_eq_true (h.mpr rfl)

theorem mem_movementFlags {f : Direction_Movement} (h : f ∈ movementFlags) :
    ∃ a : ℕ, a < 8 ∧ f = ⟨((2 ^ a : ℕ) : ℤ)⟩ := by
  simp only [movementFlags, List.mem_cons, List.mem_singleton, List.not_mem_nil, or_false] at h
  rcases h with rfl | rfl | rfl | rfl | rfl | rfl | rfl | rfl
  · exact ⟨0, by norm_num, rfl⟩
  · exact ⟨1, by norm_num, rfl⟩
  · exact ⟨2, by norm_num, rfl⟩
  · exact ⟨3, by norm_num, rfl⟩
  · exact ⟨4, by norm_num, rfl⟩
  · exact ⟨5, by norm_num, rfl⟩
  · exact ⟨6, by norm_num, rfl⟩
  · exact ⟨7, by norm_num, rfl⟩

theorem two_pow_mem_movementFlags {a : ℕ} (h : a < 8) :
    (⟨((2 ^ a : ℕ) : ℤ)⟩ : Direction_Movement) ∈ movementFlags := by
  interval_cases a <;> decide

theorem flag_two_pow_inj {a b : ℕ}
    (h : (⟨((2 ^ a : ℕ) : ℤ)⟩ : Direction_Movement) = ⟨((2 ^ b : ℕ) : ℤ)⟩) : a = b := by
  have h1 : ((2 ^ a : ℕ) : ℤ) = ((2 ^ b : ℕ) : ℤ) := congrArg Direction_Movement.val h
  have h2 : 2 ^ a = 2 ^ b := by exact_mod_cast h1
  exact Nat.pow_right_injective (le_refl 2) h2

theorem hasFlag_orAssign (i : Direction_Movement) (a b : ℕ) :
    HasFlag (Direction_Movement.orAssign i ⟨((2 ^ a : ℕ) : ℤ)⟩) ⟨((2 ^ b : ℕ) : ℤ)⟩
      = (decide (a = b) || HasFlag i ⟨((2 ^ b : ℕ) : ℤ)⟩) := by
  rw [hasFlag_two_pow, hasFlag_two_pow]
  show Int.testBit (Int.lor i.val ((2 ^ a : ℕ) : ℤ)) b = _
  rw [Int.testBit_lor, int_testBit_two_pow, Bool.or_comm]

theorem hasFlag_andAssign_not (i : Direction_Movement) (a b : ℕ) :
    HasFlag (Direction_Movement.andAssign i (~~~ ⟨((2 ^ a : ℕ) : ℤ)⟩)) ⟨((2 ^ b : ℕ) : ℤ)⟩
      = (!decide (a = b) && HasFlag i ⟨((2 ^ b : ℕ) : ℤ)⟩) := by
  rw [hasFlag_two_pow, hasFlag_two_pow]
  show Int.testBit (Int.land i.val (Int.lnot ((2 ^ a : ℕ) : ℤ))) b = _
  rw [Int.testBit_land, Int.testBit_lnot, int_testBit_two_pow, Bool.and_comm]

theorem orAssign_idem (i f : Direction_Movement) :
    Direction_Movement.orAssign (Direction_Movement.orAssign i f) f
      = Direction_Movement.orAssign i f := by
  show (⟨Int.lor (Int.lor i.val f.val) f.val⟩ : Direction_Movement) = ⟨Int.lor i.val f.val⟩
  congr 1
  apply int_testBit_ext
  intro k
  simp only [Int.testBit_lor]
  cases Int.testBit i.val k <;> cases Int.testBit f.val k <;> rfl

theorem andAssign_not_idem (i f : Direction_Movement) :
    Direction_Movement.andAssign (Direction_Movement.andAssign i (~~~ f)) (~~~ f)
      = Direction_Movement.andAssign i (~~~ f) := by
  show (⟨Int.land (Int.land i.val (Int.lnot f.val)) (Int.lnot f.val)⟩ : Direction_Movement)
    = ⟨Int.land i.val (Int.lnot f.val)⟩
  congr 1
  apply int_testBit_ext
  intro k
  simp only [Int.testBit_land, Int.testBit_lnot]
  cases Int.testBit i.val k <;> cases Int.testBit f.val k <;> rfl

theorem andAssign_not_of_absent (i : Direction_Movement) (a : ℕ)
    (h : HasFlag i ⟨((2 ^ a : ℕ) : ℤ)⟩ = false) :
    Direction_Movement.andAssign i (~~~ ⟨((2 ^ a : ℕ) : ℤ)⟩) = i := by
  rw [hasFlag_two_pow] at h
  show (⟨Int.land i.val (Int.lnot ((2 ^ a : ℕ) : ℤ))⟩ : Direction_Movement) = i
  have e : Int.land i.val (Int.lnot ((2 ^ a : ℕ) : ℤ)) = i.val := by
    apply int_testBit_ext
    intro k
    rw [Int.testBit_land, Int.testBit_lnot, int_testBit_two_pow]
    by_cases hk : a = k
    · rw [← hk, h]
      rfl
    · simp [hk]
  rw [e]

/-- C18. For every `Direction_Movement` value `i` and all flags `f`, `g` among the eight
single-bit flags: after `i |= f`, `HasFlag(i, g)` holds iff `g = f` or it held before;
after `i &= ~f`, `HasFlag(i, g)` holds iff `g ≠ f` and it held before.  Setting twice and
clearing twice equal setting once and clearing once, clearing an absent flag leaves `i`
unchanged, and setting or clearing `f` does not change the presence of another flag. -/
theorem flag_set_clear (i f g : Direction_Movement) (hf : f ∈ movementFlags)
    (hg : g ∈ movementFlags) :
    (HasFlag (Direction_Movement.orAssign i f) g = true ↔ (g = f ∨ HasFlag i g = true)) ∧
      (HasFlag (Direction_Movement.andAssign i (~~~ f)) g = true
        ↔ (g ≠ f ∧ HasFlag i g = true)) ∧
      Direction_Movement.orAssign (Direction_Movement.orAssign i f) f
        = Direction_Movement.orAssign i f ∧
      Direction_Movement.andAssign (Direction_Movement.andAssign i (~~~ f)) (~~~ f)
        = Direction_Movement.andAssign i (~~~ f) ∧
      (HasFlag i f = false → Direction_Movement.andAssign i (~~~ f) = i) ∧
      (g ≠ f → HasFlag (Direction_Movement.orAssign i f) g = HasFlag i g ∧
        HasFlag (Direction_Movement.andAssign i (~~~ f)) g = HasFlag i g) := by
  obtain ⟨a, _, rfl⟩ := mem_movementFlags hf
  obtain ⟨b, _, rfl⟩ := mem_movementFlags hg
  have hab : ((⟨((2 ^ b : ℕ) : ℤ)⟩ : Direction_Movement) = ⟨((2 ^ a : ℕ) : ℤ)⟩) ↔ a = b :=
    ⟨fun h => (flag_two_pow_inj h).symm, fun h => by rw [h]⟩
  refine ⟨?_, ?_, orAssign_idem _ _, andAssign_not_idem _ _, andAssign_not_of_absent i a, ?_⟩
  · rw [hasFlag_orAssign, hab]
    simp
  · rw [hasFlag_andAssign_not, Ne, hab]
    simp
  · intro hne
    have h : ¬ a = b := fun e => hne (hab.mpr e)
    rw [hasFlag_orAssign, hasFlag_andAssign_not, decide_eq_false h]
    exact ⟨rfl, rfl⟩

/-- C18 (witness): on the intent `{FORWARD, LEFT}`, setting or clearing `LEFT` does not
touch `FORWARD`. -/
theorem flag_set_clear_witness :
    Direction_Movement.LEFT ∈ movementFlags ∧ Direction_Movement.FORWARD ∈ movementFlags ∧
      (HasFlag (Direction_Movement.andAssign
          (Direction_Movement.FORWARD ||| Direction_Movement.LEFT)
          (~~~ Direction_Movement.LEFT)) Direction_Movement.FORWARD = true
        ↔ (Direction_Movement.FORWARD ≠ Direction_Movement.LEFT ∧
          HasFlag (Direction_Movement.FORWARD ||| Direction_Movement.LEFT)
            Direction_Movement.FORWARD = true)) :=
  ⟨by decide, by decide,
    (flag_set_clear (Direction_Movement.FORWARD ||| Direction_Movement.LEFT)
      Direction_Movement.LEFT Direction_Movement.FORWARD (by decide) (by decide)).2.1⟩

/-! ## C19: the one-argument `HasFlag` -/

/-- Every set bit of a reachable value is one of the low eight bits. -/
theorem flagReachable_bits (v : Direction_Movement) (h : FlagReachable v) :
    ∀ k, Int.testBit v.val k = true → k < 8 := by
  induction h with
  | none =>
    intro k hk
    have : Int.testBit 0 k = true := hk
    rw [int_testBit_zero] at this
    cases this
  | set i f _ hf ih =>
    obtain ⟨a, ha, rfl⟩ := mem_movementFlags hf
    intro k hk
    have hk2 : Int.testBit (Int.lor i.val ((2 ^ a : ℕ) : ℤ)) k = true := hk
    rw [Int.testBit_lor, int_testBit_two_pow] at hk2
    simp only [Bool.or_eq_true, decide_eq_true_eq] at hk2
    rcases hk2 with h1 | h1
    · exact ih k h1
    · omega
  | clear i f _ hf ih =>
    intro k hk
    have hk2 : Int.testBit (Int.land i.val (Int.lnot f.val)) k = true := hk
    rw [Int.testBit_land] at hk2
    simp only [Bool.and_eq_true] at hk2
    exact ih k hk2.1

theorem flagReachable_range (v : Direction_Movement) (h : FlagReachable v) :
    0 ≤ v.val ∧ v.val < 256 := by
  have hb := flagReachable_bits v h
  obtain ⟨x⟩ := v
  cases x with
  | ofNat n =>
    refine ⟨Int.ofNat_nonneg n, ?_⟩
    have hn : n < 2 ^ 8 := by
      apply Nat.lt_pow_two_of_testBit
      intro k hk
      cases hkb : Nat.testBit n k
      · rfl
      · have := hb k hkb
        omega
    have : (n : ℤ) < 256 := by exact_mod_cast hn
    exact this
  | negSucc m =>
    exfalso
    have h1 : Nat.testBit m (m + 8) = false :=
      Nat.testBit_lt_two_pow (lt_of_lt_of_le (Nat.lt_two_pow m)
        (Nat.pow_le_pow_right (by norm_num) (by omega)))
    have h2 : Int.testBit (Int.negSucc m) (m + 8) = true := by
      show (!Nat.testBit m (m + 8)) = true
      rw [h1]
      rfl
    have := hb (m + 8) h2
    omega

/-- C19. For every value reachable from `NONE` by setting and clearing the eight flags,
the one-argument `HasFlag(value)` is true iff `HasFlag(value, f)` holds for at least one
of the eight flags `f`, it is false exactly when `value == NONE`, and the value has no bit
outside the eight flags: it lies in `[0, 255]`. -/
theorem hasFlag_any_iff (v : Direction_Movement) (h : FlagReachable v) :
    (v.HasFlag = true ↔ ∃ f ∈ movementFlags, HasFlag v f = true) ∧
      (v.HasFlag = false ↔ v = Direction_Movement.NONE) ∧
      0 ≤ v.val ∧ v.val < 256 := by
  have hv : v.HasFlag = true ↔ v.val ≠ 0 := by
    unfold Direction_Movement.HasFlag
    exact decide_eq_true_iff
  refine ⟨?_, ?_, flagReachable_range v h⟩
  · rw [hv, int_ne_zero_iff_testBit]
    constructor
    · rintro ⟨k, hk⟩
      have hk8 := flagReachable_bits v h k hk
      refine ⟨⟨((2 ^ k : ℕ) : ℤ)⟩, two_pow_mem_movementFlags hk8, ?_⟩
      rw [hasFlag_two_pow]
      exact hk
    · rintro ⟨f, hf, hh⟩
      obtain ⟨a, _, rfl⟩ := mem_movementFlags hf
      rw [hasFlag_two_pow] at hh
      exact ⟨a, hh⟩
  · constructor
    · intro hh
      have h0 : ¬ v.val ≠ 0 := by
        intro hne
        rw [hv.mpr hne] at hh
        cases hh
      have h1 : v.val = 0 := not_not.mp h0
      obtain ⟨x⟩ := v
      exact congrArg Direction_Movement.mk h1
    · rintro rfl
      rfl

/-- C19 (witness): the value obtained by pressing forward and left and releasing
forward. -/
theorem hasFlag_any_iff_witness :
    FlagReachable (Direction_Movement.andAssign
        (Direction_Movement.orAssign
          (Direction_Movement.orAssign Direction_Movement.NONE Direction_Movement.FORWARD)
          Direction_Movement.LEFT) (~~~ Direction_Movement.FORWARD)) ∧
      (Direction_Movement.andAssign
        (Direction_Movement.orAssign
          (Direction_Movement.orAssign Direction_Movement.NONE Direction_Movement.FORWARD)
          Direction_Movement.LEFT) (~~~ Direction_Movement.FORWARD)).val < 256 :=
  ⟨FlagReachable.clear _ _ (FlagReachable.set _ _
      (FlagReachable.set _ _ FlagReachable.none (by decide)) (by decide)) (by decide),
    (hasFlag_any_iff _ (FlagReachable.clear _ _ (FlagReachable.set _ _
      (FlagReachable.set _ _ FlagReachable.none (by decide)) (by decide)) (by decide))).2.2.2⟩

/-! ## C20: key events -/

theorem movementKey_flag_mem (key : MovementKey) : key.flag ∈ movementFlags := by
  cases key <;> decide

theorem movementKey_flag_inj (key key' : MovementKey) (h : key.flag = key'.flag) :
    key = key' := by
  revert h
  cases key <;> cases key' <;> decide

theorem hasFlag_orAssign_flags (i f g : Direction_Movement) (hf : f ∈ movementFlags)
    (hg : g ∈ movementFlags) :
    HasFlag (Direction_Movement.orAssign i f) g = (decide (g = f) || HasFlag i g) := by
  obtain ⟨a, _, rfl⟩ := mem_movementFlags hf
  obtain ⟨b, _, rfl⟩ := mem_movementFlags hg
  rw [hasFlag_orAssign]
  congr 1
  by_cases h : a = b
  · rw [h]
    simp
  · have h2 : ¬ ((⟨((2 ^ b : ℕ) : ℤ)⟩ : Direction_Movement) = ⟨((2 ^ a : ℕ) : ℤ)⟩) :=
      fun e => h (flag_two_pow_inj e).symm
    rw [decide_eq_false h, decide_eq_false h2]

theorem hasFlag_andAssign_flags (i f g : Direction_Movement) (hf : f ∈ movementFlags)
    (hg : g ∈ movementFlags) :
    HasFlag (Direction_Movement.andAssign i (~~~ f)) g = (!decide (g = f) && HasFlag i g) := by
  obtain ⟨a, _, rfl⟩ := mem_movementFlags hf
  obtain ⟨b, _, rfl⟩ := mem_movementFlags hg
  rw [hasFlag_andAssign_not]
  congr 2
  by_cases h : a = b
  · rw [h]
    simp
  · have h2 : ¬ ((⟨((2 ^ b : ℕ) : ℤ)⟩ : Direction_Movement) = ⟨((2 ^ a : ℕ) : ℤ)⟩) :=
      fun e => h (flag_two_pow_inj e).symm
    rw [decide_eq_false h, decide_eq_false h2]

/-- The flag of `key` after one event. -/
theorem hasFlag_keyboard_input_callback (s : Direction_Movement) (e : MovementKey × Int)
    (key : MovementKey) :
    HasFlag (keyboard_input_callback s e) key.flag =
      if e.1 = key ∧ e.2 = GLFW_PRESS then true
      else if e.1 = key ∧ e.2 = GLFW_RELEASE then false
      else HasFlag s key.flag := by
  have hkey : ∀ k : MovementKey, decide (key.flag = k.flag) = decide (k = key) := by
    intro k
    by_cases h : k = key
    · rw [h]
      simp
    · have h2 : ¬ key.flag = k.flag := fun e => h (movementKey_flag_inj _ _ e).symm
      rw [decide_eq_false h, decide_eq_false h2]
  have hne : ¬ GLFW_RELEASE = GLFW_PRESS := by decide
  unfold keyboard_input_callback processCameraDirectionMovement
  by_cases hp : e.2 = GLFW_PRESS
  · have hnr : ¬ e.2 = GLFW_RELEASE := by
      rw [hp]
      decide
    rw [if_pos hp, hasFlag_orAssign_flags _ _ _ (movementKey_flag_mem _) (movementKey_flag_mem _),
      hkey]
    by_cases hk : e.1 = key <;> simp [hk, hp, hnr]
  · rw [if_neg hp]
    by_cases hr : e.2 = GLFW_RELEASE
    · rw [if_pos hr,
        hasFlag_andAssign_flags _ _ _ (movementKey_flag_mem _) (movementKey_flag_mem _), hkey]
      by_cases hk : e.1 = key <;> simp [hk, hr, hne]
    · rw [if_neg hr]
      simp [hp, hr]

theorem flagsAfter_append (es : List (MovementKey × Int)) (e : MovementKey × Int) :
    flagsAfter (es ++ [e]) = keyboard_input_callback (flagsAfter es) e := by
  unfold flagsAfter
  rw [List.foldl_append]
  rfl

theorem lastPressRelease_append (es : List (MovementKey × Int)) (e : MovementKey × Int)
    (key : MovementKey) :
    lastPressRelease (es ++ [e]) key =
      if e.1 = key ∧ (e.2 = GLFW_PRESS ∨ e.2 = GLFW_RELEASE) then some e.2
      else lastPressRelease es key := by
  unfold lastPressRelease
  rw [List.filter_append]
  by_cases h : e.1 = key ∧ (e.2 = GLFW_PRESS ∨ e.2 = GLFW_RELEASE)
  · rw [if_pos h, List.filter_cons_of_pos (by simpa using h), List.filter_nil,
      List.getLast?_append]
    rfl
  · rw [if_neg h, List.filter_cons_of_neg (by simpa using h), List.filter_nil,
      List.append_nil]

theorem flagsAfter_hasFlag (events : List (MovementKey × Int)) (key : MovementKey) :
    HasFlag (flagsAfter events) key.flag = true
      ↔ lastPressRelease events key = some GLFW_PRESS := by
  induction events using List.reverseRecOn with
  | nil =>
    have h1 : flagsAfter [] = Direction_Movement.NONE := rfl
    have h2 : lastPressRelease [] key = none := rfl
    rw [h1, h2, hasFlag_NONE]
    simp
  | append_singleton es e ih =>
    rw [flagsAfter_append, lastPressRelease_append, hasFlag_keyboard_input_callback]
    have hne : GLFW_RELEASE ≠ GLFW_PRESS := by decide
    by_cases hk : e.1 = key
    · by_cases hp : e.2 = GLFW_PRESS
      · simp [hk, hp]
      · by_cases hr : e.2 = GLFW_RELEASE
        · simp [hk, hr, hne]
        · simp [hk, hp, hr, ih]
    · simp [hk, ih]

/-- C20. `processCameraDirectionMovement(flag, action)` sets the flag in `cameraDirFlag`
when `action` is `GLFW_PRESS`, clears it when `action` is `GLFW_RELEASE` and leaves
`cameraDirFlag` unchanged for any other action.  Starting from `NONE`, after any sequence
of events of the eight movement keys the flag of a key is present iff the most recent
press-or-release event of that key was a press, and an event of one key never changes the
flag of another key. -/
theorem processCameraDirectionMovement_events :
    (∀ cameraDirFlag direction : Direction_Movement,
        processCameraDirectionMovement cameraDirFlag direction GLFW_PRESS
          = Direction_Movement.orAssign cameraDirFlag direction) ∧
      (∀ cameraDirFlag direction : Direction_Movement,
        processCameraDirectionMovement cameraDirFlag direction GLFW_RELEASE
          = Direction_Movement.andAssign cameraDirFlag (~~~ direction)) ∧
      (∀ (cameraDirFlag direction : Direction_Movement) (action : Int),
        action ≠ GLFW_PRESS → action ≠ GLFW_RELEASE →
        processCameraDirectionMovement cameraDirFlag direction action = cameraDirFlag) ∧
      (∀ (events : List (MovementKey × Int)) (key : MovementKey),
        HasFlag (flagsAfter events) key.flag = true
          ↔ lastPressRelease events key = some GLFW_PRESS) ∧
      (∀ (cameraDirFlag : Direction_Movement) (key other : MovementKey) (action : Int),
        other ≠ key →
        HasFlag (keyboard_input_callback cameraDirFlag (key, action)) other.flag
          = HasFlag cameraDirFlag other.flag) := by
  refine ⟨fun _ _ => rfl, fun _ _ => rfl, ?_, flagsAfter_hasFlag, ?_⟩
  · intro cameraDirFlag direction action hp hr
    unfold processCameraDirectionMovement
    rw [if_neg hp, if_neg hr]
  · intro cameraDirFlag key other action hne
    rw [hasFlag_keyboard_input_callback]
    have h : ¬ key = other := fun e => hne e.symm
    simp [h]

/-- C20 (witness): a repeat event of the forward key leaves the flags as they are. -/
theorem processCameraDirectionMovement_events_witness :
    GLFW_REPEAT ≠ GLFW_PRESS ∧ GLFW_REPEAT ≠ GLFW_RELEASE ∧
      processCameraDirectionMovement Direction_Movement.LEFT Direction_Movement.FORWARD
        GLFW_REPEAT = Direction_Movement.LEFT ∧
      (HasFlag (flagsAfter [(MovementKey.W, GLFW_PRESS), (MovementKey.A, GLFW_PRESS),
          (MovementKey.W, GLFW_REPEAT), (MovementKey.A, GLFW_RELEASE)]) MovementKey.W.flag = true
        ↔ lastPressRelease [(MovementKey.W, GLFW_PRESS), (MovementKey.A, GLFW_PRESS),
          (MovementKey.W, GLFW_REPEAT), (MovementKey.A, GLFW_RELEASE)] MovementKey.W
            = some GLFW_PRESS) :=
  ⟨by decide, by decide,
    processCameraDirectionMovement_events.2.2.1 _ _ _ (by decide) (by decide),
    processCameraDirectionMovement_events.2.2.2.1 _ _⟩

/-! ## C21: cursor events -/

theorem mouse_movement_callback_first (g : MouseGlobals) (mousePosX mousePosY : ℝ)
    (h : g.firstMouseMove = true) :
    (mouse_movement_callback g mousePosX mousePosY).camera
      = g.camera.processMouseMovement 0 0 := by
  unfold mouse_movement_callback
  simp only [h, if_true, sub_self]

theorem mouse_movement_callback_later (g : MouseGlobals) (mousePosX mousePosY : ℝ)
    (h : g.firstMouseMove = false) :
    (mouse_movement_callback g mousePosX mousePosY).camera
      = g.camera.processMouseMovement (mousePosX - g.lastMouseX) (g.lastMouseY - mousePosY) := by
  unfold mouse_movement_callback
  simp only [h, Bool.false_eq_true, if_false]

theorem mouse_movement_callback_last (g : MouseGlobals) (mousePosX mousePosY : ℝ) :
    (mouse_movement_callback g mousePosX mousePosY).firstMouseMove = false ∧
      (mouse_movement_callback g mousePosX mousePosY).lastMouseX = mousePosX ∧
      (mouse_movement_callback g mousePosX mousePosY).lastMouseY = mousePosY := by
  unfold mouse_movement_callback
  cases h : g.firstMouseMove <;>
    simp only [h, Bool.false_eq_true, if_false, if_true, and_self]

theorem afterMouseEvents_append (g : MouseGlobals) (events : List (ℝ × ℝ)) (e : ℝ × ℝ) :
    afterMouseEvents g (events ++ [e])
      = mouse_movement_callback (afterMouseEvents g events) e.1 e.2 := by
  unfold afterMouseEvents
  rw [List.foldl_append]
  rfl

/-- C21. In `mouse_movement_callback` the first cursor event after start-up passes the
delta `(0, 0)` to `processMouseMovement` whatever the reported position is, so `Yaw` is
unchanged by it; every later event passes `deltaX = current x - previous x` and
`deltaY = previous y - current y`, the previous position being that of the immediately
preceding event. -/
theorem mouse_movement_callback_deltas :
    (∀ (g : MouseGlobals) (mousePosX mousePosY : ℝ), g.firstMouseMove = true →
        (mouse_movement_callback g mousePosX mousePosY).camera
          = g.camera.processMouseMovement 0 0 ∧
        (mouse_movement_callback g mousePosX mousePosY).camera.Yaw = g.camera.Yaw) ∧
      (∀ (g : MouseGlobals) (mousePosX mousePosY : ℝ), g.firstMouseMove = false →
        (mouse_movement_callback g mousePosX mousePosY).camera
          = g.camera.processMouseMovement (mousePosX - g.lastMouseX)
              (g.lastMouseY - mousePosY)) ∧
      (∀ (g : MouseGlobals) (mousePosX mousePosY : ℝ),
        (mouse_movement_callback g mousePosX mousePosY).firstMouseMove = false ∧
        (mouse_movement_callback g mousePosX mousePosY).lastMouseX = mousePosX ∧
        (mouse_movement_callback g mousePosX mousePosY).lastMouseY = mousePosY) ∧
      (∀ first : ℝ × ℝ,
        (afterMouseEvents startGlobals [first]).camera
          = startGlobals.camera.processMouseMovement 0 0) ∧
      (∀ (events : List (ℝ × ℝ)) (previous current : ℝ × ℝ),
        (afterMouseEvents startGlobals (events ++ [previous, current])).camera
          = (afterMouseEvents startGlobals (events ++ [previous])).camera.processMouseMovement
              (current.1 - previous.1) (previous.2 - current.2)) := by
  refine ⟨?_, mouse_movement_callback_later, mouse_movement_callback_last, ?_, ?_⟩
  · intro g mousePosX mousePosY h
    refine ⟨mouse_movement_callback_first g mousePosX mousePosY h, ?_⟩
    rw [mouse_movement_callback_first g mousePosX mousePosY h, processMouseMovement_Yaw]
    simp
  · intro first
    exact mouse_movement_callback_first startGlobals first.1 first.2 rfl
  · intro events previous current
    have e : events ++ [previous, current] = (events ++ [previous]) ++ [current] := by simp
    rw [e, afterMouseEvents_append startGlobals (events ++ [previous]) current,
      afterMouseEvents_append startGlobals events previous]
    obtain ⟨h1, h2, h3⟩ := mouse_movement_callback_last (afterMouseEvents startGlobals events)
      previous.1 previous.2
    rw [mouse_movement_callback_later _ _ _ h1, h2, h3]

/-- C21 (witness): the first cursor event at `(100, 200)` and a second one at `(130, 180)`. -/
theorem mouse_movement_callback_deltas_witness :
    startGlobals.firstMouseMove = true ∧
      (mouse_movement_callback startGlobals 100 200).camera.Yaw = startGlobals.camera.Yaw ∧
      (mouse_movement_callback startGlobals 100 200).firstMouseMove = false ∧
      (mouse_movement_callback (mouse_movement_callback startGlobals 100 200) 130 180).camera
        = (mouse_movement_callback startGlobals 100 200).camera.processMouseMovement
            (130 - (mouse_movement_callback startGlobals 100 200).lastMouseX)
            ((mouse_movement_callback startGlobals 100 200).lastMouseY - 180) :=
  ⟨rfl, (mouse_movement_callback_deltas.1 startGlobals 100 200 rfl).2,
    (mouse_movement_callback_last startGlobals 100 200).1,
    mouse_movement_callback_deltas.2.1 (mouse_movement_callback startGlobals 100 200) 130 180
      (mouse_movement_callback_last startGlobals 100 200).1⟩

/-! ## C22: sphere and torus grids -/

/-- A loop whose condition is `i < N` for some `N` below `2 ^ 32`, started at a counter
`i ≤ N` with more than `N - i` fuel, terminates, and an invariant kept by the body holds
for `N` at the end. -/
theorem forLoop_invariant {σ : Type} (cond : Nat → Bool) (body : Nat → σ → Option σ)
    (N : Nat) (P : Nat → σ → Prop) (hN : N < 2 ^ 32) (hc : ∀ i, cond i = true ↔ i < N)
    (hb : ∀ i s, i < N → P i s → ∃ s', body i s = some s' ∧ P (i + 1) s') :
    ∀ (fuel i : Nat) (s : σ), i ≤ N → N - i < fuel → P i s →
      ∃ s', forLoop cond body fuel i s = some s' ∧ P N s' := by
  intro fuel
  induction fuel with
  | zero =>
    intro i s _ hf _
    omega
  | succ fuel ih =>
    intro i s hi hf hP
    unfold forLoop
    by_cases hlt : i < N
    · obtain ⟨s', hs', hP'⟩ := hb i s hlt hP
      have hu : uadd i 1 = i + 1 := by
        unfold uadd
        exact Nat.mod_eq_of_lt (by omega)
      rw [if_pos ((hc i).mpr hlt), hs', hu]
      exact ih (i + 1) s' (by omega) (by omega) hP'
    · have hcn : ¬ cond i = true := fun e => hlt ((hc i).mp e)
      have hiN : i = N := by omega
      rw [if_neg hcn]
      exact ⟨s, rfl, hiN ▸ hP⟩

/-- The two nested vertex loops of a grid push `(h + 1) * (v + 1)` vertices. -/
theorem vertex_loops_length (fuel h v : Nat) (mk : Nat → Nat → Vertex)
    (hh : h + 1 < 2 ^ 32) (hv : v + 1 < 2 ^ 32) (hf1 : h + 2 ≤ fuel) (hf2 : v + 2 ≤ fuel) :
    ∃ vs : List Vertex,
      forLoop (fun i => decide (i ≤ h)) (fun i vertices =>
        forLoop (fun j => decide (j ≤ v)) (fun j vertices => some (vertices ++ [mk i j]))
          fuel 0 vertices) fuel 0 [] = some vs ∧
      vs.length = (h + 1) * (v + 1) := by
  have inner : ∀ (i : Nat) (s : List Vertex), ∃ s',
      forLoop (fun j => decide (j ≤ v)) (fun j vertices => some (vertices ++ [mk i j]))
        fuel 0 s = some s' ∧ s'.length = s.length + (v + 1) := by
    intro i s
    exact forLoop_invariant (fun j => decide (j ≤ v))
      (fun j vertices => some (vertices ++ [mk i j])) (v + 1)
      (fun j t => t.length = s.length + j) hv
      (fun j => by simp [Nat.lt_succ_iff])
      (fun j t _ ht => ⟨t ++ [mk i j], rfl, by
        show (t ++ [mk i j]).length = s.length + (j + 1)
        rw [List.length_append, ht]
        rfl⟩)
      fuel 0 s (by omega) (by omega) rfl
  exact forLoop_invariant (fun i => decide (i ≤ h))
    (fun i vertices =>
      forLoop (fun j => decide (j ≤ v)) (fun j vertices => some (vertices ++ [mk i j]))
        fuel 0 vertices) (h + 1)
    (fun i t => t.length = i * (v + 1)) hh
    (fun i => by simp [Nat.lt_succ_iff])
    (fun i t _ ht => by
      obtain ⟨s', hs', hl⟩ := inner i t
      refine ⟨s', hs', ?_⟩
      show s'.length = (i + 1) * (v + 1)
      rw [hl, ht]
      ring)
    fuel 0 [] (by omega) (by omega) (by simp)

/-- The six indices of the quad `(i, j)` of a grid, computed in wrapping 32-bit
arithmetic, are the exact values and are smaller than the number of vertices. -/
theorem quad_indices (h v i j : Nat) (hi : i < h) (hj : j < v)
    (hM : (h + 1) * (v + 1) < 2 ^ 32) :
    uadd (umul i (uadd v 1)) j = i * (v + 1) + j ∧
      uadd (uadd (uadd (umul i (uadd v 1)) j) v) 1 = i * (v + 1) + j + v + 1 ∧
      uadd (uadd (uadd (uadd (umul i (uadd v 1)) j) v) 1) 1 = i * (v + 1) + j + v + 2 ∧
      uadd (uadd (umul i (uadd v 1)) j) 1 = i * (v + 1) + j + 1 ∧
      i * (v + 1) + j + v + 2 < (h + 1) * (v + 1) := by
  have h1 : (i + 1) * (v + 1) ≤ h * (v + 1) := Nat.mul_le_mul_right _ (by omega)
  have e1 : (i + 1) * (v + 1) = i * (v + 1) + v + 1 := by ring
  have e2 : (h + 1) * (v + 1) = h * (v + 1) + v + 1 := by ring
  have hb : i * (v + 1) + j + v + 2 < (h + 1) * (v + 1) := by omega
  have m : ∀ x : Nat, x < (h + 1) * (v + 1) → x % 2 ^ 32 = x :=
    fun x hx => Nat.mod_eq_of_lt (lt_trans hx hM)
  have a1 : uadd v 1 = v + 1 := m _ (by omega)
  have a2 : umul i (v + 1) = i * (v + 1) := m _ (by omega)
  have a3 : uadd (i * (v + 1)) j = i * (v + 1) + j := m _ (by omega)
  have a4 : uadd (i * (v + 1) + j) v = i * (v + 1) + j + v := m _ (by omega)
  have a5 : uadd (i * (v + 1) + j + v) 1 = i * (v + 1) + j + v + 1 := m _ (by omega)
  have a6 : uadd (i * (v + 1) + j + v + 1) 1 = i * (v + 1) + j + v + 2 := m _ (by omega)
  have a7 : uadd (i * (v + 1) + j) 1 = i * (v + 1) + j + 1 := m _ (by omega)
  rw [a1, a2, a3, a4, a5, a6, a7]
  exact ⟨rfl, rfl, rfl, rfl, hb⟩

/-- The two nested index loops of a grid push `6 * h * v` indices, each smaller than the
number `(h + 1) * (v + 1)` of vertices. -/
theorem index_loops (fuel h v : Nat) (hM : (h + 1) * (v + 1) < 2 ^ 32)
    (hf1 : h + 2 ≤ fuel) (hf2 : v + 2 ≤ fuel) :
    ∃ is : List Nat,
      forLoop (fun i => decide (i < h)) (fun i indices =>
        forLoop (fun j => decide (j < v)) (fun j indices =>
          let a := uadd (umul i (uadd v 1)) j
          let b := uadd (uadd a v) 1
          some (indices ++ [a, b, uadd b 1, a, uadd b 1, uadd a 1]))
          fuel 0 indices) fuel 0 [] = some is ∧
      is.length = 6 * h * v ∧ ∀ x ∈ is, x < (h + 1) * (v + 1) := by
  have hh : h < 2 ^ 32 := by
    have : h + 1 ≤ (h + 1) * (v + 1) := Nat.le_mul_of_pos_right _ (by omega)
    omega
  have hv : v < 2 ^ 32 := by
    have : v + 1 ≤ (h + 1) * (v + 1) := Nat.le_mul_of_pos_left _ (by omega)
    omega
  have inner : ∀ (i : Nat) (s : List Nat), i < h → (∀ x ∈ s, x < (h + 1) * (v + 1)) →
      ∃ s', forLoop (fun j => decide (j < v)) (fun j indices =>
          let a := uadd (umul i (uadd v 1)) j
          let b := uadd (uadd a v) 1
          some (indices ++ [a, b, uadd b 1, a, uadd b 1, uadd a 1]))
          fuel 0 s = some s' ∧
        s'.length = s.length + 6 * v ∧ ∀ x ∈ s', x < (h + 1) * (v + 1) := by
    intro i s hi hs
    exact forLoop_invariant (fun j => decide (j < v)) (fun j indices =>
        let a := uadd (umul i (uadd v 1)) j
        let b := uadd (uadd a v) 1
        some (indices ++ [a, b, uadd b 1, a, uadd b 1, uadd a 1])) v
      (fun j t => t.length = s.length + 6 * j ∧ ∀ x ∈ t, x < (h + 1) * (v + 1)) hv
      (fun j => by simp)
      (fun j t hj ht => by
        obtain ⟨q1, q2, q3, q4, q5⟩ := quad_indices h v i j hi hj hM
        refine ⟨_, rfl, ?_, ?_⟩
        · rw [List.length_append, ht.1]
          show s.length + 6 * j + 6 = s.length + 6 * (j + 1)
          ring
        · intro x hx
          rw [q3, q2, q4, q1] at hx
          rw [List.mem_append] at hx
          rcases hx with hx | hx
          · exact ht.2 x hx
          · simp only [List.mem_cons, List.mem_singleton, List.not_mem_nil, or_false] at hx
            rcases hx with rfl | rfl | rfl | rfl | rfl | rfl <;> omega)
      fuel 0 s (by omega) (by omega) ⟨rfl, hs⟩
  exact forLoop_invariant (fun i => decide (i < h)) (fun i indices =>
      forLoop (fun j => decide (j < v)) (fun j indices =>
        let a := uadd (umul i (uadd v 1)) j
        let b := uadd (uadd a v) 1
        some (indices ++ [a, b, uadd b 1, a, uadd b 1, uadd a 1]))
        fuel 0 indices) h
    (fun i t => t.length = 6 * i * v ∧ ∀ x ∈ t, x < (h + 1) * (v + 1)) hh
    (fun i => by simp)
    (fun i t hi ht => by
      obtain ⟨s', hs', hl, hb⟩ := inner i t hi ht.2
      refine ⟨s', hs', ?_, hb⟩
      rw [hl, ht.1]
      ring)
    fuel 0 [] (by omega) (by omega) ⟨by simp, by simp⟩

theorem sphere_counts (fuel : Nat) (radius : ℝ) (h v : Nat) (hh : 2 ≤ h) (hv : 2 ≤ v)
    (hM : (h + 1) * (v + 1) < 2 ^ 32) (hf1 : h + 2 ≤ fuel) (hf2 : v + 2 ≤ fuel) :
    ∃ p : Primitive, Sphere fuel radius h v = some p ∧
      p._vertices.length = (h + 1) * (v + 1) ∧ p._indices.length = 6 * h * v ∧
      ∀ x ∈ p._indices, x < p._vertices.length := by
  have hh1 : h + 1 < 2 ^ 32 := by
    have : (h + 1) * 2 ≤ (h + 1) * (v + 1) := Nat.mul_le_mul_left _ (by omega)
    omega
  have hv1 : v + 1 < 2 ^ 32 := by
    have : 2 * (v + 1) ≤ (h + 1) * (v + 1) := Nat.mul_le_mul_right _ (by omega)
    omega
  obtain ⟨vs, hvs, hl⟩ := vertex_loops_length fuel h v
    (fun i j =>
      let texY := (i : ℝ) / (h : ℝ)
      let phi := (1 - texY) * Real.pi
      let texX := (j : ℝ) / (v : ℝ)
      let theta := texX * (2 * Real.pi)
      let normal : Vec3 :=
        ⟨Real.sin phi * Real.cos theta, Real.cos phi, Real.sin phi * Real.sin theta⟩
      ⟨normal * radius, normal, _defaultColor, ⟨texX, texY⟩⟩) hh1 hv1 hf1 hf2
  obtain ⟨is, his, hil, hib⟩ := index_loops fuel h v hM hf1 hf2
  refine ⟨⟨vs, is⟩, ?_, hl, hil, fun x hx => by
    show x < vs.length
    rw [hl]
    exact hib x hx⟩
  unfold Sphere
  rw [if_neg (by omega)]
  split
  · rename_i heq
    exact absurd (hvs.symm.trans heq) (by simp)
  · rename_i vs' heq
    have e1 : vs' = vs := Option.some.inj (heq.symm.trans hvs)
    split
    · rename_i heq2
      exact absurd (his.symm.trans heq2) (by simp)
    · rename_i is' heq2
      have e2 : is' = is := Option.some.inj (heq2.symm.trans his)
      rw [e1, e2]

theorem torus_counts (fuel : Nat) (outerRadius innerRadius : ℝ) (h v : Nat) (hh : 2 ≤ h)
    (hv : 2 ≤ v) (hM : (h + 1) * (v + 1) < 2 ^ 32) (hf1 : h + 2 ≤ fuel) (hf2 : v + 2 ≤ fuel) :
    ∃ p : Primitive, Torus fuel outerRadius innerRadius h v = some p ∧
      p._vertices.length = (h + 1) * (v + 1) ∧ p._indices.length = 6 * h * v ∧
      ∀ x ∈ p._indices, x < p._vertices.length := by
  have hh1 : h + 1 < 2 ^ 32 := by
    have : (h + 1) * 2 ≤ (h + 1) * (v + 1) := Nat.mul_le_mul_left _ (by omega)
    omega
  have hv1 : v + 1 < 2 ^ 32 := by
    have : 2 * (v + 1) ≤ (h + 1) * (v + 1) := Nat.mul_le_mul_right _ (by omega)
    omega
  obtain ⟨vs, hvs, hl⟩ := vertex_loops_length fuel h v
    (fun i j =>
      let texY := (i : ℝ) / (h : ℝ)
      let phi := (1 - texY) * (2 * Real.pi)
      let texX := (j : ℝ) / (v : ℝ)
      let theta := texX * (2 * Real.pi)
      let x := (outerRadius + innerRadius * Real.cos theta) * Real.cos phi
      let y := innerRadius * Real.sin theta
      let z := (outerRadius + innerRadius * Real.cos theta) * Real.sin phi
      let pos : Vec3 := ⟨x, y, z⟩
      let normal : Vec3 :=
        ⟨Real.cos theta * Real.cos phi, Real.sin theta, Real.cos theta * Real.sin phi⟩
      ⟨pos, normal, _defaultColor, ⟨texX, texY⟩⟩) hh1 hv1 hf1 hf2
  obtain ⟨is, his, hil, hib⟩ := index_loops fuel h v hM hf1 hf2
  refine ⟨⟨vs, is⟩, ?_, hl, hil, fun x hx => by
    show x < vs.length
    rw [hl]
    exact hib x hx⟩
  unfold Torus
  rw [if_neg (by omega)]
  split
  · rename_i heq
    exact absurd (hvs.symm.trans heq) (by simp)
  · rename_i vs' heq
    have e1 : vs' = vs := Option.some.inj (heq.symm.trans hvs)
    split
    · rename_i heq2
      exact absurd (his.symm.trans heq2) (by simp)
    · rename_i is' heq2
      have e2 : is' = is := Option.some.inj (heq2.symm.trans his)
      rw [e1, e2]

/-- C22. For `horizontalLines = h ≥ 2` and `verticalLines = v ≥ 2` with
`(h + 1) * (v + 1) < 2 ^ 32`, the `Sphere` and `Torus` constructors terminate (any fuel of
at least `h + 2` and `v + 2` is enough) and produce exactly `(h + 1) * (v + 1)` vertices
and exactly `6 * h * v` indices, every index being strictly smaller than the vertex count;
when `h < 2` or `v < 2` both lists are empty. -/
theorem sphere_torus_grid (h v : Nat) :
    (2 ≤ h → 2 ≤ v → (h + 1) * (v + 1) < 2 ^ 32 →
        ∀ fuel : Nat, h + 2 ≤ fuel → v + 2 ≤ fuel →
          (∀ radius : ℝ, ∃ p : Primitive, Sphere fuel radius h v = some p ∧
            p._vertices.length = (h + 1) * (v + 1) ∧ p._indices.length = 6 * h * v ∧
            ∀ x ∈ p._indices, x < p._vertices.length) ∧
          (∀ outerRadius innerRadius : ℝ, ∃ p : Primitive,
            Torus fuel outerRadius innerRadius h v = some p ∧
            p._vertices.length = (h + 1) * (v + 1) ∧ p._indices.length = 6 * h * v ∧
            ∀ x ∈ p._indices, x < p._vertices.length)) ∧
      (h < 2 ∨ v < 2 →
        ∀ fuel : Nat,
          (∀ radius : ℝ, Sphere fuel radius h v = some ⟨[], []⟩) ∧
          (∀ outerRadius innerRadius : ℝ,
            Torus fuel outerRadius innerRadius h v = some ⟨[], []⟩)) := by
  constructor
  · intro hh hv hM fuel hf1 hf2
    exact ⟨fun radius => sphere_counts fuel radius h v hh hv hM hf1 hf2,
      fun outerRadius innerRadius =>
        torus_counts fuel outerRadius innerRadius h v hh hv hM hf1 hf2⟩
  · intro hlt fuel
    constructor
    · intro radius
      unfold Sphere
      rw [if_pos hlt]
    · intro outerRadius innerRadius
      unfold Torus
      rw [if_pos hlt]

/-- C22 (witness): the sphere `Sphere(1.6f, 64U, 64U)` of `main.cpp` has 4225 vertices and
24576 indices, and a sphere with one horizontal line has none. -/
theorem sphere_torus_grid_witness :
    (2 ≤ 64 ∧ (64 + 1) * (64 + 1) < 2 ^ 32 ∧ 64 + 2 ≤ 66) ∧
      (∃ p : Primitive, Sphere 66 (8 / 5) 64 64 = some p ∧
        p._vertices.length = (64 + 1) * (64 + 1) ∧ p._indices.length = 6 * 64 * 64 ∧
        ∀ x ∈ p._indices, x < p._vertices.length) ∧
      Sphere 0 (8 / 5) 1 64 = some ⟨[], []⟩ :=
  ⟨⟨by decide, by decide, by decide⟩,
    ((sphere_torus_grid 64 64).1 (by decide) (by decide) (by decide) 66 (by decide)
      (by decide)).1 (8 / 5),
    ((sphere_torus_grid 1 64).2 (Or.inl (by decide)) 0).1 (8 / 5)⟩

end GraphicEngine

end
